import Mathlib

/-!
Shallow embedding of the dvc-data storage core (src/dvc_data/hashfile/*):
the HashInfo/Meta value types, the diff algorithm (diff.py), the checkout
diff post-processing and checkout loop (checkout.py), the Tree manifest
serialization, round-trip and three-way merge (tree.py), the object-store
check (db/__init__.py, db/local.py), the transfer loop (transfer.py) and
the State fingerprint cache (state.py).

Python machine-level details are modelled as follows: Python dicts are
insertion-ordered association lists (assignment keeps the position of an
existing key, otherwise appends); Python sets are de-duplicated lists used
only through membership; cryptographic digests are an abstract parameter
`String → String` (claims never depend on md5 internals, only on equality
or difference of the hashed bytes); filesystem and store I/O outcomes are
oracle functions passed as parameters; exceptions are `Except`/sum results.
-/

namespace DvcData

/-- Keys of tree entries: tuples of path components (tree.py uses
`Tuple[str, ...]`). -/
abbrev TKey := List String

/-- The pseudo-root key `ROOT = ("",)` from diff.py. -/
def ROOT : TKey := [""]

/-- hash_info.py `HashInfo`: digest name and value; equality is on
`(name, value)` (`obj_name` is ignored by `__eq__` and never used by the
claims, so it is omitted). -/
structure HashInfo where
  name : Option String := none
  value : Option String := none
deriving DecidableEq, Repr

/-- Python truthiness of HashInfo: `__bool__` is `bool(self.value)`. -/
def HashInfo.toBool (h : HashInfo) : Bool :=
  match h.value with
  | some v => v ≠ ""
  | none => false

/-- List-level suffix test (`String.endsWith` does not reduce in the
kernel, so we test on the underlying character lists). -/
def strEndsWith (s suffix : String) : Bool :=
  suffix.data.isSuffixOf s.data

/-- hash_info.py `HashInfo.isdir`: value is truthy and ends with the
directory marker `.dir`. -/
def HashInfo.isdir (h : HashInfo) : Bool :=
  match h.value with
  | some v => if v = "" then false else strEndsWith v ".dir"
  | none => false

/-- meta.py `Meta`: descriptive attributes. Fields participating in the
claims are kept with faithful types; `mtime` (a Python float) is modelled
as an integer timestamp since no claim computes with it, and `remote`
(excluded from `__eq__`) is omitted so that Lean structural equality
coincides with the Python `eq` field set. -/
structure Meta where
  isdir : Bool := false
  size : Option Int := none
  nfiles : Option Int := none
  isexec : Bool := false
  version_id : Option String := none
  etag : Option String := none
  checksum : Option String := none
  md5 : Option String := none
  inode : Option Int := none
  mtime : Option Int := none
deriving DecidableEq, Repr

/-! ## diff.py -/

/-- An object handed to `diff`: either a plain `HashFile` (always truthy:
`obj.py` gives it `__len__ = 1`) or a `Tree` (truthy iff its `_dict` is
non-empty; `hash_info` is `None` until the tree is digested or loaded).
Tree entries are the `_dict` items `(key, (meta, hash_info))` in insertion
order. -/
inductive PyObj where
  | file (hash_info : HashInfo)
  | tree (hash_info : Option HashInfo) (entries : List (TKey × Option Meta × HashInfo))
deriving DecidableEq, Repr

/-- Python truthiness of the object (`if not obj` checks in diff.py). -/
def PyObj.toBool : PyObj → Bool
  | .file _ => true
  | .tree _ entries => entries ≠ []

/-- The object's own `hash_info` attribute. -/
def PyObj.hashInfo : PyObj → Option HashInfo
  | .file h => some h
  | .tree h _ => h

/-- First-match association lookup (Python `dict.get` read side). -/
def dlookup {κ α : Type} [DecidableEq κ] (k : κ) : List (κ × α) → Option α
  | [] => none
  | (k', v) :: t => if k' = k then some v else dlookup k t

/-- Python dict assignment: replace the value in place if the key exists,
else append (insertion order preserved). -/
def dictSet {κ α : Type} [DecidableEq κ] (d : List (κ × α)) (k : κ) (v : α) : List (κ × α) :=
  match d with
  | [] => [(k, v)]
  | (k', v') :: t => if k' = k then (k, v) :: t else (k', v') :: dictSet t k v

/-- diff.py `_get_keys`: empty for a falsy object, else `[ROOT]` plus the
tree keys for a Tree. -/
def getKeysOf (obj : Option PyObj) : List TKey :=
  match obj with
  | none => []
  | some o =>
      if o.toBool then
        ROOT :: (match o with
          | .tree _ entries => entries.map (·.1)
          | .file _ => [])
      else []

/-- diff.py `_get`: `(None, obj.hash_info if obj else None)` for a falsy
object or the ROOT key, `(None, None)` for a non-Tree at a non-root key,
else `obj.get(key, (None, None))`. -/
def pyGet (obj : Option PyObj) (key : TKey) : Option Meta × Option HashInfo :=
  match obj with
  | none => (none, none)
  | some o =>
      if ¬ o.toBool then (none, none)
      else if key = ROOT then (none, o.hashInfo)
      else
        match o with
        | .file _ => (none, none)
        | .tree _ entries =>
            match dlookup key entries with
            | some (m, h) => (m, some h)
            | none => (none, none)

/-- diff.py `_in_cache`: `False` for a falsy oid, else the result of
`cache.check(oid.value)` with `FileNotFoundError`/`ObjectFormatError`
caught as `False`. The store is abstracted by the oracle
`check : String → Bool` (`true` = the call returns normally). -/
def inCache (check : String → Bool) : Option HashInfo → Bool
  | none => false
  | some h => if h.toBool then check (h.value.getD "") else false

/-- diff.py `TreeEntry` (attrs): `__eq__` compares only `key` and `oid`
(`in_cache` and `meta` carry `eq=False`), so Python equality is the
separate `teEq` below. -/
structure TreeEntry where
  in_cache : Bool := false
  key : TKey := []
  meta : Option Meta := none
  oid : Option HashInfo := none
deriving DecidableEq, Repr

/-- Python `TreeEntry.__eq__` (attrs eq on `key` and `oid` only). -/
def teEq (a b : TreeEntry) : Bool :=
  a.key = b.key ∧ a.oid = b.oid

/-- Python `TreeEntry.__bool__`: `bool(self.oid)`. -/
def TreeEntry.toBool (e : TreeEntry) : Bool :=
  match e.oid with
  | some h => h.toBool
  | none => false

/-- diff.py `Change`: a pair of entries; `typ` is derived (below). -/
structure Change where
  old : TreeEntry := {}
  new : TreeEntry := {}
deriving DecidableEq, Repr

/-- The diff classification strings of diff.py. -/
def ADD : String := "add"

/-- diff.py `MODIFY` marker. -/
def MODIFY : String := "modify"

/-- diff.py `DELETE` marker. -/
def DELETE : String := "delete"

/-- diff.py `UNCHANGED` marker. -/
def UNCHANGED : String := "unchanged"

/-- diff.py `Change.typ` default: the if-cascade over the truthiness of
the two entries and their attrs equality. -/
def changeTyp (c : Change) : String :=
  if ¬ c.old.toBool ∧ ¬ c.new.toBool then UNCHANGED
  else if c.old.toBool ∧ ¬ c.new.toBool then DELETE
  else if ¬ c.old.toBool ∧ c.new.toBool then ADD
  else if ¬ teEq c.old c.new then MODIFY
  else UNCHANGED

/-- diff.py `DiffResult`: the four ordered change lists. -/
structure DiffResult where
  added : List Change := []
  modified : List Change := []
  deleted : List Change := []
  unchanged : List Change := []
deriving DecidableEq, Repr

/-- Python `DiffResult.__bool__`: added, modified or deleted non-empty. -/
def DiffResult.toBool (d : DiffResult) : Bool :=
  d.added ≠ [] ∨ d.modified ≠ [] ∨ d.deleted ≠ []

/-- De-duplication keeping first occurrences: a Python set iterated as a
list (the model fixes one concrete order; no claim depends on it). -/
def dedupAux {κ : Type} [DecidableEq κ] (seen : List κ) : List κ → List κ
  | [] => []
  | k :: t => if k ∈ seen then dedupAux seen t else k :: dedupAux (k :: seen) t

/-- Key set iterated by `diff`: the union `old_keys | new_keys`. -/
def diffKeys (old new : Option PyObj) : List TKey :=
  dedupAux [] (getKeysOf old ++ getKeysOf new)

/-- The `Change` constructed by `diff` for one key. -/
def changeAt (check : String → Bool) (old new : Option PyObj) (k : TKey) : Change :=
  let op := pyGet old k
  let np := pyGet new k
  { old := { in_cache := inCache check op.2, key := k, meta := op.1, oid := op.2 }
    new := { in_cache := inCache check np.2, key := k, meta := np.1, oid := np.2 } }

/-- The append dispatch of the `diff` loop body. -/
def appendChange (d : DiffResult) (c : Change) : DiffResult :=
  if changeTyp c = ADD then { d with added := d.added ++ [c] }
  else if changeTyp c = MODIFY then { d with modified := d.modified ++ [c] }
  else if changeTyp c = DELETE then { d with deleted := d.deleted ++ [c] }
  else { d with unchanged := d.unchanged ++ [c] }

/-- diff.py `diff(old, new, cache)`: early return for two `None` inputs,
then one pass over the key-set union classifying each key. -/
def diffRun (check : String → Bool) (old new : Option PyObj) : DiffResult :=
  if old = none ∧ new = none then {}
  else (diffKeys old new).foldl (fun d k => appendChange d (changeAt check old new k)) {}

/-! ## checkout.py `_diff` post-processing (relink not requested) -/

/-- checkout.py `_diff`, `else` branch (no relink): every unchanged change
whose new side is not in cache and whose new oid is not a truthy directory
manifest is appended to `modified` (Python `not (change.new.oid and
change.new.oid.isdir)`); the change also stays in `unchanged`. -/
def promoteMissing (d : DiffResult) : DiffResult :=
  { d with
    modified := d.modified ++ d.unchanged.filter
      (fun c => !c.new.in_cache && !(match c.new.oid with
        | some h => h.toBool && h.isdir
        | none => false)) }

/-- checkout.py `_diff(path, fs, obj, cache, relink=False)`: the diff of
the rebuilt on-disk object against the target, followed by the
missing-cache promotion. -/
def checkoutDiff (check : String → Bool) (old new : Option PyObj) : DiffResult :=
  promoteMissing (diffRun check old new)

/-- Number of changes in a list whose entries carry the given key. -/
def keyCount (k : TKey) (l : List Change) : Nat :=
  l.countP (fun c => c.new.key = k)

/-- Total number of occurrences of a key across the four lists of a
DiffResult. -/
def keyCountTotal (k : TKey) (d : DiffResult) : Nat :=
  keyCount k d.added + keyCount k d.modified + keyCount k d.deleted + keyCount k d.unchanged

/-! ## tree.py: the Tree manifest, its serialization and round-trip -/

/-- The in-memory `Tree._dict`: an insertion-ordered mapping from key to
`(meta, hash_info)`. -/
abbrev TreeDict := List (TKey × (Option Meta × HashInfo))

/-- tree.py `Tree.add`: plain dict assignment. -/
def treeAdd (d : TreeDict) (k : TKey) (m : Option Meta) (h : HashInfo) : TreeDict :=
  dictSet d k (m, h)

/-- A Tree built by calling `add` for each element of a list in order. -/
def buildTree (l : List (TKey × Option Meta × HashInfo)) : TreeDict :=
  l.foldl (fun d e => treeAdd d e.1 e.2.1 e.2.2) []

/-- Relpath of a key: `posixpath.sep.join(parts)` written as structural
recursion (the separator goes between adjacent components). -/
def joinKey : TKey → String
  | [] => ""
  | [s] => s
  | s :: t => s ++ "/" ++ joinKey t

/-- Character-list split on a separator, Python `str.split` style:
splitting the empty string yields `[""]`. -/
def splitChars (sep : Char) : List Char → List (List Char)
  | [] => [[]]
  | c :: cs =>
      let r := splitChars sep cs
      if c = sep then [] :: r
      else
        match r with
        | [] => [[c]]
        | h :: t => (c :: h) :: t

/-- tree.py `from_list`: `relpath.split(posixpath.sep)` back into a key. -/
def splitKey (s : String) : TKey :=
  (splitChars '/' s.data).map String.mk

/-- Code-point comparison of characters, as Python compares strings. -/
def charListLt : List Char → List Char → Bool
  | [], [] => false
  | [], _ :: _ => true
  | _ :: _, [] => false
  | a :: as, b :: bs =>
      if a.toNat < b.toNat then true
      else if b.toNat < a.toNat then false
      else charListLt as bs

/-- Python string `<` (lexicographic on code points). -/
def strLt (a b : String) : Bool :=
  charListLt a.data b.data

/-- Python string `<=`. -/
def strLe (a b : String) : Bool :=
  !(strLt b a)

/-- Stable insertion of an element in front of the first already-placed
element it compares `le` to; elements already in the list were originally
later, so ties keep original order, as Python's stable `sorted` does. -/
def insertSorted {α : Type} (le : α → α → Bool) (a : α) : List α → List α
  | [] => [a]
  | b :: l => if le a b then a :: b :: l else b :: insertSorted le a l

/-- Stable sort (models Python `sorted` with a key function). -/
def stableSort {α : Type} (le : α → α → Bool) : List α → List α
  | [] => []
  | a :: l => insertSorted le a (stableSort le l)

/-- Lowercase hex digit, as used by `json.dumps` unicode escapes. -/
def hexDigit (n : Nat) : Char :=
  if n < 10 then Char.ofNat (48 + n) else Char.ofNat (87 + n)

/-- A `\\uXXXX` escape for a code unit. -/
def uEscape (n : Nat) : List Char :=
  ['\\', 'u', hexDigit ((n / 4096) % 16), hexDigit ((n / 256) % 16),
   hexDigit ((n / 16) % 16), hexDigit (n % 16)]

/-- Escape of one character in a `json.dumps` string (default
`ensure_ascii=True`): the two-character escapes, `\\uXXXX` for other
control and non-ASCII characters, and surrogate pairs beyond the BMP. -/
def escChar (c : Char) : List Char :=
  if c = '\\' then ['\\', '\\']
  else if c = '"' then ['\\', '"']
  else if c.toNat = 10 then ['\\', 'n']
  else if c.toNat = 9 then ['\\', 't']
  else if c.toNat = 13 then ['\\', 'r']
  else if c.toNat = 8 then ['\\', 'b']
  else if c.toNat = 12 then ['\\', 'f']
  else if c.toNat < 32 then uEscape c.toNat
  else if c.toNat < 127 then [c]
  else if c.toNat < 65536 then uEscape c.toNat
  else
    uEscape (55296 + (c.toNat - 65536) / 1024) ++ uEscape (56320 + (c.toNat - 65536) % 1024)

/-- A JSON string literal for `s`. -/
def jsonStr (s : String) : String :=
  String.mk ('"' :: (s.data.map escChar).flatten ++ ['"'])

/-- hash_info.py `HashInfo.to_dict`: `{}` for a falsy value, else the
single pair `{name: value}` (a `None` name would serialize as the JSON
key `null`; no claim exercises it). -/
def hiToDict (h : HashInfo) : List (String × String) :=
  if h.toBool then [(h.name.getD "null", h.value.getD "")] else []

/-- hash_info.py `HashInfo.from_dict`: `HashInfo(None, None)` for an empty
dict, else the dict's single item (Python unpacks exactly one item; a
manifest entry written by `as_bytes` never has more than one left after
`relpath` is popped, so the catch-all mirrors that unreachable case). -/
def hiFromDict : List (String × String) → HashInfo
  | [] => {}
  | [(n, v)] => { name := some n, value := some v }
  | _ => {}

/-- meta.py `Meta.from_dict` restricted to manifest entries: every value
in a manifest object written with `with_meta=False` is a JSON string, so
only the string-typed Meta fields can be populated. -/
def metaFromDict (ps : List (String × String)) : Meta :=
  { version_id := dlookup "version_id" ps
    etag := dlookup "etag" ps
    checksum := dlookup "checksum" ps
    md5 := dlookup "md5" ps }

/-- tree.py `as_list` entry dict (default `with_meta=False`):
`{**hi.to_dict(), "relpath": relpath}` in Python dict insertion order. -/
def entryPairs (k : TKey) (h : HashInfo) : List (String × String) :=
  dictSet (hiToDict h) "relpath" (joinKey k)

/-- A serialized directory entry: its sort key (the relpath) and dict. -/
structure DirEntryS where
  relpath : String
  pairs : List (String × String)
deriving DecidableEq, Repr

/-- The serialized form of one `_dict` item. -/
def entrySOf (e : TKey × Option Meta × HashInfo) : DirEntryS :=
  { relpath := joinKey e.1, pairs := entryPairs e.1 e.2.2 }

/-- tree.py `as_list`: entries sorted by relpath with Python's stable
`sorted(..., key=itemgetter("relpath"))`. -/
def asListM (d : TreeDict) : List DirEntryS :=
  stableSort (fun a b => strLe a.relpath b.relpath) (d.map entrySOf)

/-- Keys of one JSON object sorted (`json.dumps(..., sort_keys=True)`). -/
def sortPairs (ps : List (String × String)) : List (String × String) :=
  stableSort (fun a b => strLe a.1 b.1) ps

/-- One JSON object with `json.dumps` default separators. -/
def jsonOfPairs (ps : List (String × String)) : String :=
  "\x7b" ++ String.intercalate ", " ((sortPairs ps).map (fun p => jsonStr p.1 ++ ": " ++ jsonStr p.2)) ++ "\x7d"

/-- tree.py `as_bytes`: `json.dumps(self.as_list(), sort_keys=True)`. -/
def asBytesM (d : TreeDict) : String :=
  "[" ++ String.intercalate ", " ((asListM d).map (fun e => jsonOfPairs e.pairs)) ++ "]"

/-- tree.py `Tree.digest`: md5 of the serialized bytes with the `.dir`
suffix appended. The digest itself is the abstract parameter `md5hex`. -/
def digestM (md5hex : String → String) (d : TreeDict) : HashInfo :=
  { name := some "md5", value := some (md5hex (asBytesM d) ++ ".dir") }

/-- tree.py `from_list` on one parsed manifest entry: pop `relpath`,
split it into a key, and rebuild `(meta, hash_info)` from the rest. -/
def fromListEntry (ps : List (String × String)) : TKey × Option Meta × HashInfo :=
  let rp := (dlookup "relpath" ps).getD ""
  let rest := ps.filter (fun p => p.1 ≠ "relpath")
  (splitKey rp, (some (metaFromDict rest), hiFromDict rest))

/-- tree.py `Tree.load` composed with `from_list` for a tree stored by
`digest`: `json.load` of the stored bytes returns the serialized entry
list (each object in sorted-key document order); the byte-level JSON
round-trip is the external `json` library. -/
def loadTree (d : TreeDict) : TreeDict :=
  buildTree ((asListM d).map (fun e => fromListEntry (sortPairs e.pairs)))

/-! ## tree.py `_diff` / `_merge` (three-way merge over flat dicts)

The dicts compared here are `Tree.as_dict()` results: flat Python dicts
from tuple keys to `(meta, hash_info)` tuples. `dictdiffer` treats the
tuple values atomically (they are not `MutableMapping`/`MutableSequence`),
so its diff of two such dicts is: one `change` op per common key whose
values differ (iterated in the second dict's order), then one grouped
`add` op for the keys only in the second dict, then one grouped `remove`
op for the keys only in the first; `patch` applies `change`/`add` as dict
assignment and `remove` as `del` (KeyError when the key is absent). This
is pinned by the repository's own `test_merge*` cases. -/

/-- A `dictdiffer` op over a flat dict with atomic values. -/
inductive DOp (α : Type) where
  | change (key : TKey) (old new : α)
  | addG (items : List (TKey × α))
  | removeG (items : List (TKey × α))
deriving DecidableEq, Repr

/-- A flat Python dict as handed to `_merge`. -/
abbrev DDict (α : Type) := List (TKey × α)

/-- The op's type string as checked against `allowed`. -/
def opTyp {α : Type} : DOp α → String
  | .change _ _ _ => "change"
  | .addG _ => ADD
  | .removeG _ => "remove"

/-- dictdiffer's per-key `change` ops: one for every key of the second
dict present in the first with a different value. -/
def ddiffChanges {α : Type} [DecidableEq α] (a b : DDict α) : List (DOp α) :=
  b.filterMap (fun p =>
    match dlookup p.1 a with
    | some va => if va ≠ p.2 then some (DOp.change p.1 va p.2) else none
    | none => none)

/-- dictdiffer's addition items: entries of the second dict whose key is
absent from the first. -/
def ddiffAdds {α : Type} [DecidableEq α] (a b : DDict α) : DDict α :=
  b.filter (fun p => dlookup p.1 a = none)

/-- dictdiffer's deletion items: entries of the first dict whose key is
absent from the second. -/
def ddiffRems {α : Type} [DecidableEq α] (a b : DDict α) : DDict α :=
  a.filter (fun p => dlookup p.1 b = none)

/-- dictdiffer.diff on two flat dicts with atomic values: the `change`
ops, then one grouped `add`, then one grouped `remove`. -/
def ddiff {α : Type} [DecidableEq α] (a b : DDict α) : List (DOp α) :=
  ddiffChanges a b ++ (if ddiffAdds a b = [] then [] else [DOp.addG (ddiffAdds a b)])
    ++ (if ddiffRems a b = [] then [] else [DOp.removeG (ddiffRems a b)])

/-- Python `del d[k]`: `None` models the `KeyError` on a missing key. -/
def dictDel {α : Type} (k : TKey) : DDict α → Option (DDict α)
  | [] => none
  | (k', v) :: t =>
      if k' = k then some t
      else (dictDel k t).map (fun t2 => (k', v) :: t2)

/-- Application of one grouped `add`: dict assignment per item. -/
def applyAdds {κ α : Type} [DecidableEq κ] (items d : List (κ × α)) : List (κ × α) :=
  items.foldl (fun d2 p => dictSet d2 p.1 p.2) d

/-- dictdiffer.patch of one op. -/
def patchOne {α : Type} : DOp α → DDict α → Option (DDict α)
  | .change k _ vnew, d => some (dictSet d k vnew)
  | .addG items, d => some (applyAdds items d)
  | .removeG items, d =>
      items.foldlM (fun d2 p => dictDel p.1 d2) d

/-- dictdiffer.patch of an op list, left to right. -/
def patchOps {α : Type} (ops : List (DOp α)) (d : DDict α) : Option (DDict α) :=
  ops.foldlM (fun d2 op => patchOne op d2) d

/-- tree.py `_diff`: `if not allowed: allowed = ["add"]`. -/
def normAllowed (allowed : List String) : List String :=
  if allowed = [] then [ADD] else allowed

/-- tree.py `_diff(ancestor, other, allowed)`: the dictdiffer diff, or the
first op type not in `allowed` (which Python raises as `MergeError`). -/
def tdiffE {α : Type} [DecidableEq α] (allowed : List String) (anc other : DDict α) :
    Except String (List (DOp α)) :=
  let r := ddiff anc other
  match r.find? (fun op => opTyp op ∉ normAllowed allowed) with
  | some op => .error (opTyp op)
  | none => .ok r

/-- Outcome of `_merge`: the merged dict, one of the three `MergeError`
shapes, or a raw `KeyError` escaping from the conflict-path computation
(`patch(unmergeable, {})` can `del` from the empty dict). -/
inductive MergeRes (α : Type) where
  | ok (d : DDict α)
  | unsupportedOp (typ : String)
  | bothDeleted
  | conflict (paths : List String)
  | keyError
deriving DecidableEq, Repr

/-- True on the `MergeError` outcomes. -/
def MergeRes.isMergeError {α : Type} : MergeRes α → Bool
  | .unsupportedOp _ => true
  | .bothDeleted => true
  | .conflict _ => true
  | _ => false

/-- tree.py `_merge(ancestor, our, their, allowed)`. -/
def tmerge {α : Type} [DecidableEq α] (allowed : List String) (anc our their : DDict α) :
    MergeRes α :=
  match tdiffE allowed anc our with
  | .error t => .unsupportedOp t
  | .ok ourD =>
    if ourD = [] then .ok their
    else
      match tdiffE allowed anc their with
      | .error t => .unsupportedOp t
      | .ok theirD =>
        if theirD = [] then .ok our
        else
          match patchOps (ourD ++ theirD) anc, patchOps (theirD ++ ourD) anc with
          | some p1, some p2 =>
              if ddiff p1 p2 = [] then .ok p1
              else
                match patchOps (ddiff p1 p2) [] with
                | some m => .conflict (m.map (fun p => joinKey p.1))
                | none => .keyError
          | _, _ => .bothDeleted

/-- All ops of a diff are additions (the only kind in the default
`allowed`). -/
def allAdd {α : Type} (ops : List (DOp α)) : Prop :=
  ∀ op ∈ ops, opTyp op = ADD

/-- The two sides add the same new path with different content: the true
conflict shape reachable under the default `allowed`. -/
def conflictingAdd {α : Type} [DecidableEq α] (anc our their : DDict α) : Prop :=
  ∃ k v1 v2, dlookup k anc = none ∧ dlookup k our = some v1
    ∧ dlookup k their = some v2 ∧ v1 ≠ v2

/-! ## transfer.py `_do_transfer`

Oids are modelled by their value strings (every `HashInfo` in one
transfer carries the store's single `hash_name`, which is also the name
`_add` puts on a failed oid). `members` maps a directory-manifest oid to
the member oids of its loaded Tree (the code asserts the Tree loads);
`addFails oid = true` models `dest.add` invoking `on_error` for that oid,
and a `false` result means the object was written to the destination. -/

/-- Oid directory check (`HashInfo.isdir` on a bare value). -/
def oidIsdir (oid : String) : Bool :=
  if oid = "" then false else strEndsWith oid ".dir"

/-- Running state of the `_do_transfer` loop. -/
structure TransferState where
  files : List String := []
  failed : List String := []
  added : List String := []
  succeededDirs : List String := []
deriving DecidableEq, Repr

/-- One iteration of the `for dir_hash in dir_ids` loop. -/
def transferDirStep (members : String → List String) (addFails : String → Bool)
    (missing : List String) (st : TransferState) (dirOid : String) : TransferState :=
  let entryIds := members dirOid
  let bound := st.files.filter (fun o => o ∈ entryIds)
  let rest := st.files.filter (fun o => o ∉ entryIds)
  let dirFails := bound.filter (fun o => addFails o)
  let dirOks := bound.filter (fun o => ¬ addFails o)
  let st1 : TransferState := { st with files := rest, added := st.added ++ dirOks }
  if dirFails ≠ [] then
    { st1 with failed := st1.failed ++ dirFails ++ [dirOid] }
  else if entryIds.any (fun o => o ∈ missing) then st1
  else if addFails dirOid then { st1 with failed := st1.failed ++ [dirOid] }
  else
    { st1 with added := st1.added ++ [dirOid], succeededDirs := st1.succeededDirs ++ [dirOid] }

/-- transfer.py `_do_transfer(src, dest, obj_ids, missing_ids)`: split into
directory and file oids, run the directory loop, then `_add` the remaining
files. `failed` is the returned failed set; `added` records every oid whose
`dest.add` succeeded. -/
def doTransfer (members : String → List String) (addFails : String → Bool)
    (missing : List String) (objIds : List String) : TransferState :=
  let dirIds := objIds.filter oidIsdir
  let fileIds := objIds.filter (fun o => ¬ oidIsdir o)
  let st0 : TransferState := { files := dedupAux [] fileIds }
  let st := dirIds.foldl (transferDirStep members addFails missing) st0
  { st with
    files := []
    failed := st.failed ++ st.files.filter (fun o => addFails o)
    added := st.added ++ st.files.filter (fun o => ¬ addFails o) }

/-! ## checkout.py `_checkout` (the materialization loop)

Per-path filesystem outcomes are oracles: `linkRes p` is the result of the
`transfer` call inside `Link.__call__` for destination `p` (`enoent` is a
`FileNotFoundError`, re-raised as `CheckoutError([p])`; `oserr` any other
`OSError`, re-raised as `LinkError(p)`), `existsAt` is `fs.exists`, and
`promptAnswer` is the optional confirmation callback's constant answer. -/

/-- Outcome of the link/copy primitive for one destination path. -/
inductive LinkRes where
  | okRes
  | enoent
  | oserr
deriving DecidableEq, Repr

/-- The exceptions escaping `_checkout` and its helpers. -/
inductive CheckoutExc where
  | checkoutError (paths : List String)
  | linkError (path : String)
  | promptError (path : String)
deriving DecidableEq, Repr

/-- One `added`/`modified` change as consumed by the loop (`change.new.oid`
is dereferenced unconditionally there, so it is non-optional here). -/
structure COEntry where
  key : TKey
  newOid : HashInfo
  oldOid : Option HashInfo := none
  oldInCache : Bool := false
deriving DecidableEq, Repr

/-- Environment of one `_checkout` call. -/
structure COEnv where
  root : String
  force : Bool := false
  promptAnswer : Option Bool := none
  existsAt : String → Bool := fun _ => false
  linkRes : String → LinkRes := fun _ => LinkRes.okRes
  linksAvail : Bool := true

/-- checkout.py entry path: `fs.join(path, *key)` unless the key is ROOT. -/
def entryPath (root : String) (k : TKey) : String :=
  if k = ROOT then root else joinKey (root :: k)

/-- checkout.py `_remove`: without `force`, a path not known to be backed
by cache is only removed after an affirmative prompt; a missing path is
skipped silently; `fs.remove` itself ignores `FileNotFoundError`. -/
def removeStep (env : COEnv) (p : String) (inCacheOld : Bool) : Option CheckoutExc :=
  if ¬ env.force ∧ ¬ inCacheOld then
    if ¬ env.existsAt p then none
    else
      match env.promptAnswer with
      | some true => none
      | _ => some (.promptError p)
  else none

/-- The `Link.__call__` outcome for one destination. -/
def linkStep (env : COEnv) (p : String) : Except CheckoutExc Unit :=
  match env.linkRes p with
  | .okRes => .ok ()
  | .enoent => .error (.checkoutError [p])
  | .oserr => .error (.linkError p)

/-- checkout.py `_checkout_file` with `relink=False`: an old oid goes
through `_relink` (remove, link, re-protect); a fresh path links
directly. -/
def checkoutFileStep (env : COEnv) (e : COEntry) (p : String) : Except CheckoutExc Unit :=
  match e.oldOid with
  | some _ =>
      match removeStep env p e.oldInCache with
      | some exc => .error exc
      | none => linkStep env p
  | none => linkStep env p

/-- The `for change in chain(diff.added, diff.modified)` loop: returns the
paths attempted (in order) and the collected failures, stopping early only
when an exception other than `CheckoutError` escapes. -/
def checkoutLoop (env : COEnv) :
    List COEntry → List String × List String × Option CheckoutExc
  | [] => ([], [], none)
  | e :: rest =>
      let p := entryPath env.root e.key
      if e.newOid.isdir then
        let (att, fl, exc) := checkoutLoop env rest
        (p :: att, fl, exc)
      else
        match checkoutFileStep env e p with
        | .ok _ =>
            let (att, fl, exc) := checkoutLoop env rest
            (p :: att, fl, exc)
        | .error (.checkoutError ps) =>
            let (att, fl, exc) := checkoutLoop env rest
            (p :: att, ps ++ fl, exc)
        | .error exc => ([p], [], some exc)

/-- checkout.py `_checkout`: the falsy-diff early return, the link-type
probe, the deletion phase, then the materialization loop; `CheckoutError`
with every collected path is raised only at the very end. The returned
list is the sequence of added/modified paths the loop attempted. -/
def runCheckout (env : COEnv) (deleted : List (TKey × Bool)) (addmod : List COEntry) :
    List String × Except CheckoutExc Unit :=
  if deleted = [] ∧ addmod = [] then ([], .ok ())
  else if ¬ env.linksAvail then ([], .error (.linkError env.root))
  else
    match deleted.findSome? (fun d => removeStep env (entryPath env.root d.1) d.2) with
    | some exc => ([], .error exc)
    | none =>
        let (att, fl, exc) := checkoutLoop env addmod
        match exc with
        | some e => (att, .error e)
        | none => (att, if fl ≠ [] then .error (.checkoutError fl) else .ok ())

/-! ## db/__init__.py `HashFileDB.check` with db/local.py protection

The store maps oids to stored bytes (the sharded `oid_to_path` layout is
injective, so paths are keyed by oid); `protectedOids` is the set of
store files whose mode is the read-only `CACHE_MODE` (`is_protected` on a
`LocalHashFileDB`); `stateHit oid` is the digest the `State` cache returns
for the stored file inside `hash_file` (`none` = miss, recompute). -/

/-- Object store contents and protection state. -/
structure ODB where
  objects : List (String × String) := []
  protectedOids : List String := []
deriving DecidableEq, Repr

/-- db/local.py `is_protected` for the stored file of an oid. -/
def isProtectedM (db : ODB) (oid : String) : Bool :=
  oid ∈ db.protectedOids

/-- Python `s.split(".")[0]`: the prefix before the first dot. -/
def splitDot (s : String) : String :=
  String.mk (s.data.takeWhile (fun c => c ≠ '.'))

/-- Result of `HashFileDB.check`. -/
inductive ChkRes where
  | okRes
  | notFound
  | formatError
deriving DecidableEq, Repr

/-- db/__init__.py `HashFileDB.check(oid, check_hash)`: protected files
return immediately; without `check_hash` only existence is tested; with it
the stored bytes are re-hashed (via the `State` shortcut when it hits), a
digest mismatch deletes the object and is an `ObjectFormatError`, and a
verified file is protected. -/
def dbCheck (md5hex : String → String) (stateHit : String → Option String)
    (db : ODB) (oid : String) (checkHash : Bool) : ChkRes × ODB :=
  if isProtectedM db oid then (.okRes, db)
  else if ¬ checkHash then
    (if (dlookup oid db.objects).isSome then .okRes else .notFound, db)
  else
    match dlookup oid db.objects with
    | none => (.notFound, db)
    | some bytes =>
        let actual := match stateHit oid with
          | some v => v
          | none => md5hex bytes
        if splitDot actual ≠ splitDot oid then
          (.formatError, { db with objects := db.objects.filter (fun p => p.1 ≠ oid) })
        else (.okRes, { db with protectedOids := db.protectedOids ++ [oid] })

/-! ## state.py `State.save` / `State.get` -/

/-- One parsed record of the hashes database. The records written by this
`State.save` carry no version field; `version` is kept so that records
written by other producers (as in the repository's own state tests) can be
represented. Unparseable raw strings (which `get` treats as a miss) are
not needed by any claim and are not represented. -/
structure SEntry where
  version : Option Int := none
  checksum : Int
  size : Int
  hiDict : List (String × String) := []
deriving DecidableEq, Repr

/-- The filesystem as `State` sees it: the `LocalFileSystem` instance
check, and the fingerprint/size calls (`none` = `FileNotFoundError`). -/
structure StateFs where
  isLocal : Bool
  checksum : String → Option Int := fun _ => none
  size : String → Option Int := fun _ => none

/-- The state database: the persistent `hashes` table and the in-memory
overlay used while `lazy_flushing` is active. -/
structure StateDB where
  hashes : List (String × SEntry) := []
  inMem : List (String × SEntry) := []
  lazyFlush : Bool := false

/-- state.py `State.save(path, fs, hash_info, size=None)`: a no-op for a
non-local filesystem; otherwise records the current fingerprint, the size
(`size or fs.size(path)`, so a `None` or `0` argument re-queries the
filesystem, whose errors propagate) and `hash_info.to_dict()`. -/
def stateSave (fs : StateFs) (st : StateDB) (path : String) (hi : HashInfo)
    (size : Option Int) : Except Unit StateDB :=
  if ¬ fs.isLocal then .ok st
  else
    match fs.checksum path with
    | none => .error ()
    | some c =>
        let sz? := match size with
          | some n => if n = 0 then fs.size path else some n
          | none => fs.size path
        match sz? with
        | none => .error ()
        | some sz =>
            let entry : SEntry := { checksum := c, size := sz, hiDict := hiToDict hi }
            if st.lazyFlush then .ok { st with inMem := dictSet st.inMem path entry }
            else .ok { st with hashes := dictSet st.hashes path entry }

/-- state.py `State.get(path, fs)`: `(None, None)` for a non-local
filesystem, a missing record, a missing file, or a fingerprint mismatch;
otherwise `(Meta(size=...), HashInfo.from_dict(...))` — the record's
version is never consulted. -/
def stateGet (fs : StateFs) (st : StateDB) (path : String) :
    Option Meta × Option HashInfo :=
  if ¬ fs.isLocal then (none, none)
  else
    let entry? := match dlookup path st.inMem with
      | some e => some e
      | none => dlookup path st.hashes
    match entry? with
    | none => (none, none)
    | some e =>
        match fs.checksum path with
        | none => (none, none)
        | some actual =>
            if e.checksum ≠ actual then (none, none)
            else (some { size := some e.size }, some (hiFromDict e.hiDict))

/-! ## Concrete instances used by the witness and counterexample theorems -/

/-- A file digest used by several concrete instances. -/
def hiA : HashInfo := { name := some "md5", value := some "aaa111" }

/-- A second, different file digest. -/
def hiB : HashInfo := { name := some "md5", value := some "bbb222" }

/-- A two-entry object for the diff witnesses: a digested tree holding one
file entry. -/
def wTree1 : PyObj :=
  .tree (some { name := some "md5", value := some "11112222.dir" }) [(["x"], (none, hiB))]

/-- Store contents for the check theorems: one object whose bytes are
stale. -/
def db3 : ODB := { objects := [("aa11", "bytes")] }

/-- The same store with the stale object protected (read-only). -/
def db3p : ODB := { objects := [("aa11", "bytes")], protectedOids := ["aa11"] }

/-- Entry list for the digest witness. -/
def wDigL1 : List (TKey × Option Meta × HashInfo) := [(["a"], none, hiA), (["b"], none, hiB)]

/-- The same entries in the other insertion order. -/
def wDigL2 : List (TKey × Option Meta × HashInfo) := [(["b"], none, hiB), (["a"], none, hiA)]

/-- Two distinct keys sharing the relpath `a/b` (a component containing
the separator): the digest counterexample inputs. -/
def cexDigL1 : List (TKey × Option Meta × HashInfo) :=
  [(["a", "b"], none, hiA), (["a/b"], none, hiB)]

/-- The same entry set inserted in the opposite order. -/
def cexDigL2 : List (TKey × Option Meta × HashInfo) :=
  [(["a/b"], none, hiB), (["a", "b"], none, hiA)]

/-- A one-entry tree whose meta carries a size: the round-trip
counterexample input. -/
def cexTree5 : List (TKey × Option Meta × HashInfo) :=
  [(["a"], some { size := some 3 }, hiA)]

/-- Merge counterexample dict: one path mapped to a value. -/
def cexAnc6 : DDict HashInfo := [(["foo"], hiA)]

/-- Merge witness ancestor: one path. -/
def wAnc6 : DDict HashInfo := [(["f"], hiA)]

/-- Merge witness ours: the same path modified. -/
def wOur6 : DDict HashInfo := [(["f"], hiB)]

/-- Transfer members: two directory manifests sharing the one file. -/
def mem7 (d : String) : List String :=
  if d = "d1.dir" then ["f1"] else if d = "d2.dir" then ["f1"] else []

/-- Transfer add failures: only the shared file fails. -/
def fails7 (o : String) : Bool :=
  o = "f1"

/-- Checkout environment whose link primitive hits a non-ENOENT `OSError`
on the first entry. -/
def env8a : COEnv :=
  { root := "w", linkRes := fun p => if p = "w/a" then .oserr else .okRes }

/-- Checkout environment whose link primitive hits a missing source on the
first entry; `force` avoids the prompt path. -/
def env8b : COEnv :=
  { root := "w", force := true, linkRes := fun p => if p = "w/a" then .enoent else .okRes }

/-- Two added entries (no old side) for the checkout theorems. -/
def addmod8 : List COEntry :=
  [{ key := ["a"], newOid := hiA }, { key := ["b"], newOid := hiB }]

/-- A local filesystem whose fingerprint and size calls succeed. -/
def lfs9 : StateFs := { isLocal := true, checksum := fun _ => some 7, size := fun _ => some 11 }

/-- A hashes-table record carrying a version field that is not the current
format version, with a fingerprint matching the file. -/
def rec9 : SEntry := { version := some 2, checksum := 7, size := 11, hiDict := [("md5", "v")] }

/-- A non-local filesystem for the State witness. -/
def memFs10 : StateFs := { isLocal := false }

/-- The added/modified destination paths whose link step hits a missing
source (`FileNotFoundError` inside `Link.__call__`), in loop order: the
paths `_checkout` accumulates into the final `CheckoutError`. -/
def failedPaths (env : COEnv) (addmod : List COEntry) : List String :=
  addmod.filterMap (fun e =>
    if ¬ e.newOid.isdir ∧ env.linkRes (entryPath env.root e.key) = LinkRes.enoent
    then some (entryPath env.root e.key) else none)

/-! # Theorems -/

theorem mem_dedupAux {κ : Type} [DecidableEq κ] (k : κ) :
    ∀ (l seen : List κ), k ∈ dedupAux seen l ↔ k ∈ l ∧ k ∉ seen := by
  intro l
  induction l with
  | nil => intro seen; simp [dedupAux]
  | cons a t ih =>
      intro seen
      by_cases ha : a ∈ seen
      · rw [show dedupAux seen (a :: t) = dedupAux seen t from by simp [dedupAux, ha]]
        rw [ih seen]
        constructor
        · rintro ⟨h1, h2⟩
          exact ⟨List.mem_cons_of_mem _ h1, h2⟩
        · rintro ⟨h1, h2⟩
          rcases List.mem_cons.mp h1 with rfl | h1
          · exact absurd ha h2
          · exact ⟨h1, h2⟩
      · rw [show dedupAux seen (a :: t) = a :: dedupAux (a :: seen) t from by
          simp [dedupAux, ha]]
        constructor
        · intro hmem
          rcases List.mem_cons.mp hmem with rfl | hmem
          · exact ⟨List.mem_cons_self _ _, ha⟩
          · obtain ⟨h1, h2⟩ := (ih (a :: seen)).mp hmem
            exact ⟨List.mem_cons_of_mem _ h1, fun hs => h2 (List.mem_cons_of_mem _ hs)⟩
        · rintro ⟨h1, h2⟩
          rcases List.mem_cons.mp h1 with rfl | h1
          · exact List.mem_cons_self _ _
          · by_cases hk : k = a
            · subst hk; exact List.mem_cons_self _ _
            · refine List.mem_cons_of_mem _ ((ih (a :: seen)).mpr ⟨h1, fun hmem => ?_⟩)
              rcases List.mem_cons.mp hmem with h | h
              · exact hk h
              · exact h2 h

theorem nodup_dedupAux {κ : Type} [DecidableEq κ] :
    ∀ (l seen : List κ), (dedupAux seen l).Nodup := by
  intro l
  induction l with
  | nil => intro seen; simp [dedupAux]
  | cons a t ih =>
      intro seen
      by_cases ha : a ∈ seen
      · simpa [dedupAux, if_pos ha] using ih seen
      · rw [show dedupAux seen (a :: t) = a :: dedupAux (a :: seen) t from by
          simp [dedupAux, ha]]
        refine List.nodup_cons.mpr ⟨?_, ih (a :: seen)⟩
        intro hmem
        exact ((mem_dedupAux a t (a :: seen)).mp hmem).2 (List.mem_cons_self a seen)

theorem countP_eq_one_of_nodup_mem {κ : Type} [DecidableEq κ] {k : κ} :
    ∀ {l : List κ}, l.Nodup → k ∈ l → l.countP (fun k' => k' = k) = 1 := by
  intro l
  induction l with
  | nil => intro _ h; simp at h
  | cons a t ih =>
      intro hn hm
      rcases List.mem_cons.mp hm with rfl | hm
      · have hnot : k ∉ t := (List.nodup_cons.mp hn).1
        have : t.countP (fun k' => k' = k) = 0 := by
          refine List.countP_eq_zero.mpr ?_
          intro x hx
          simp only [decide_eq_true_eq]
          rintro rfl
          exact hnot hx
        simp [List.countP_cons, this]
      · have hne : a ≠ k := by
          rintro rfl
          exact (List.nodup_cons.mp hn).1 hm
        have := ih (List.nodup_cons.mp hn).2 hm
        simp [List.countP_cons, this, hne]

theorem keyCountTotal_append (k : TKey) (d : DiffResult) (c : Change) :
    keyCountTotal k (appendChange d c)
      = keyCountTotal k d + (if c.new.key = k then 1 else 0) := by
  by_cases hk : c.new.key = k <;>
    unfold appendChange keyCountTotal keyCount <;>
    split_ifs <;>
      simp [List.countP_append, List.countP_cons, hk] <;> omega

theorem keyCountTotal_foldl (check : String → Bool) (old new : Option PyObj) (k : TKey) :
    ∀ (ks : List TKey) (d : DiffResult),
    keyCountTotal k (ks.foldl (fun d2 k' => appendChange d2 (changeAt check old new k')) d)
      = keyCountTotal k d + ks.countP (fun k' => k' = k) := by
  intro ks
  induction ks with
  | nil => intro d; simp
  | cons a t ih =>
      intro d
      have hkey : (changeAt check old new a).new.key = a := rfl
      simp only [List.foldl_cons, ih, keyCountTotal_append, hkey, List.countP_cons]
      split_ifs <;> simp_all <;> omega

theorem changeTyp_self (check : String → Bool) (o : Option PyObj) (k : TKey) :
    changeTyp (changeAt check o o k) = UNCHANGED := by
  unfold changeTyp changeAt teEq
  cases h : (pyGet o k).2 with
  | none => simp [TreeEntry.toBool, h]
  | some hi =>
      cases hb : hi.toBool <;> simp [TreeEntry.toBool, h, hb]

theorem foldl_self_empty (check : String → Bool) (o : Option PyObj) :
    ∀ (ks : List TKey) (d : DiffResult),
    d.added = [] → d.modified = [] → d.deleted = [] →
    ((ks.foldl (fun d2 k' => appendChange d2 (changeAt check o o k')) d).added = []
      ∧ (ks.foldl (fun d2 k' => appendChange d2 (changeAt check o o k')) d).modified = []
      ∧ (ks.foldl (fun d2 k' => appendChange d2 (changeAt check o o k')) d).deleted = []) := by
  intro ks
  induction ks with
  | nil => intro d h1 h2 h3; exact ⟨h1, h2, h3⟩
  | cons a t ih =>
      intro d h1 h2 h3
      have ht := changeTyp_self check o a
      have hA : UNCHANGED ≠ ADD := by decide
      have hM : UNCHANGED ≠ MODIFY := by decide
      have hD : UNCHANGED ≠ DELETE := by decide
      simp only [List.foldl_cons]
      refine ih _ ?_ ?_ ?_ <;>
        simp [appendChange, ht, hA, hM, hD, h1, h2, h3]

theorem diffRun_self_empty (check : String → Bool) (o : PyObj) :
    (diffRun check (some o) (some o)).added = []
    ∧ (diffRun check (some o) (some o)).modified = []
    ∧ (diffRun check (some o) (some o)).deleted = [] := by
  have h : diffRun check (some o) (some o)
      = (diffKeys (some o) (some o)).foldl
          (fun d2 k' => appendChange d2 (changeAt check (some o) (some o) k')) {} := by
    unfold diffRun
    simp
  rw [h]
  exact foldl_self_empty check (some o) (diffKeys _ _) {} rfl rfl rfl

/-- C1: every key in the union of the two key sets (the root key included)
is classified into exactly one of the four lists of the DiffResult, and
diffing a tree against itself with a fully present cache yields empty
added, modified and deleted lists. -/
theorem diff_union_partition_and_self_unchanged :
    (∀ (check : String → Bool) (old new : Option PyObj) (k : TKey),
      k ∈ diffKeys old new → keyCountTotal k (diffRun check old new) = 1)
    ∧ (∀ (check : String → Bool) (hi : Option HashInfo)
        (entries : List (TKey × Option Meta × HashInfo)),
      (∀ s, check s = true) →
      (diffRun check (some (.tree hi entries)) (some (.tree hi entries))).added = []
      ∧ (diffRun check (some (.tree hi entries)) (some (.tree hi entries))).modified = []
      ∧ (diffRun check (some (.tree hi entries)) (some (.tree hi entries))).deleted = []) := by
  constructor
  · intro check old new k hk
    unfold diffRun
    split_ifs with hnn
    · rcases hnn with ⟨h1, h2⟩
      rw [diffKeys, h1, h2] at hk
      simp [getKeysOf, dedupAux] at hk
    · rw [keyCountTotal_foldl]
      have hnd := nodup_dedupAux (getKeysOf old ++ getKeysOf new) ([] : List TKey)
      have hc := countP_eq_one_of_nodup_mem (k := k) hnd hk
      simp only [keyCountTotal, keyCount]
      simpa using hc
  · intro check hi entries _
    exact diffRun_self_empty check (.tree hi entries)

/-- C1 witness: the partition property at the root key of a concrete tree
diffed against itself, and the self-diff emptiness at the same tree. -/
theorem diff_union_partition_witness :
    keyCountTotal ROOT (diffRun (fun _ => true) (some wTree1) (some wTree1)) = 1
    ∧ (diffRun (fun _ => true) (some wTree1) (some wTree1)).added = []
    ∧ (diffRun (fun _ => true) (some wTree1) (some wTree1)).modified = []
    ∧ (diffRun (fun _ => true) (some wTree1) (some wTree1)).deleted = [] :=
  ⟨diff_union_partition_and_self_unchanged.1 (fun _ => true) (some wTree1) (some wTree1) ROOT
      (by decide),
   diff_union_partition_and_self_unchanged.2 (fun _ => true)
      (some { name := some "md5", value := some "11112222.dir" }) [(["x"], (none, hiB))]
      (fun _ => rfl)⟩

theorem foldl_unchanged_mono (check : String → Bool) (old new : Option PyObj) :
    ∀ (ks : List TKey) (d : DiffResult) (c : Change), c ∈ d.unchanged →
    c ∈ ((ks.foldl (fun d2 k' => appendChange d2 (changeAt check old new k')) d)).unchanged := by
  intro ks
  induction ks with
  | nil => intro d c hc; exact hc
  | cons a t ih =>
      intro d c hc
      refine ih _ c ?_
      show c ∈ (appendChange d (changeAt check old new a)).unchanged
      unfold appendChange
      split_ifs <;> simp [hc]

theorem foldl_modified_mono (check : String → Bool) (old new : Option PyObj) :
    ∀ (ks : List TKey) (d : DiffResult) (c : Change), c ∈ d.modified →
    c ∈ ((ks.foldl (fun d2 k' => appendChange d2 (changeAt check old new k')) d)).modified := by
  intro ks
  induction ks with
  | nil => intro d c hc; exact hc
  | cons a t ih =>
      intro d c hc
      refine ih _ c ?_
      show c ∈ (appendChange d (changeAt check old new a)).modified
      unfold appendChange
      split_ifs <;> simp [hc]

theorem foldl_mem_unchanged_of_key (check : String → Bool) (old new : Option PyObj) :
    ∀ (ks : List TKey) (d : DiffResult) (k : TKey), k ∈ ks →
    changeTyp (changeAt check old new k) = UNCHANGED →
    changeAt check old new k
      ∈ ((ks.foldl (fun d2 k' => appendChange d2 (changeAt check old new k')) d)).unchanged := by
  intro ks
  induction ks with
  | nil => intro d k hk; simp at hk
  | cons a t ih =>
      intro d k hk ht
      rcases List.mem_cons.mp hk with rfl | hk
      · refine foldl_unchanged_mono check old new t _ _ ?_
        have hA : ¬ (UNCHANGED = ADD) := by decide
        have hM : ¬ (UNCHANGED = MODIFY) := by decide
        have hD : ¬ (UNCHANGED = DELETE) := by decide
        simp [appendChange, ht, hA, hM, hD]
      · exact ih _ k hk ht

theorem foldl_modified_typ (check : String → Bool) (old new : Option PyObj) :
    ∀ (ks : List TKey) (d : DiffResult),
    (∀ c ∈ d.modified, changeTyp c = MODIFY) →
    ∀ c ∈ ((ks.foldl (fun d2 k' => appendChange d2 (changeAt check old new k')) d)).modified,
      changeTyp c = MODIFY := by
  intro ks
  induction ks with
  | nil => intro d hd; exact hd
  | cons a t ih =>
      intro d hd
      refine ih _ ?_
      intro c hc
      have hc2 : c ∈ (appendChange d (changeAt check old new a)).modified := hc
      unfold appendChange at hc2
      split_ifs at hc2 with h1 h2 h3
      · exact hd c hc2
      · rcases List.mem_append.mp hc2 with h | h
        · exact hd c h
        · rw [List.mem_singleton.mp h]; exact h2
      · exact hd c hc2
      · exact hd c hc2

theorem diffRun_modified_typ (check : String → Bool) (old new : Option PyObj) :
    ∀ c ∈ (diffRun check old new).modified, changeTyp c = MODIFY := by
  unfold diffRun
  split_ifs
  · intro c hc; simp at hc
  · exact foldl_modified_typ check old new (diffKeys old new) {} (by intro c hc; simp at hc)

theorem diffRun_mem_unchanged (check : String → Bool) (old new : Option PyObj) (k : TKey)
    (hk : k ∈ diffKeys old new)
    (ht : changeTyp (changeAt check old new k) = UNCHANGED) :
    changeAt check old new k ∈ (diffRun check old new).unchanged := by
  unfold diffRun
  split_ifs with hnn
  · rw [diffKeys, hnn.1, hnn.2] at hk
    simp [getKeysOf, dedupAux] at hk
  · exact foldl_mem_unchanged_of_key check old new (diffKeys old new) {} k hk ht

/-- C2: in the checkout diff without relink, a key carried with one and
the same truthy HashInfo on both sides stays classified unchanged, and is
promoted into the modified list exactly when the store's check fails for
the new oid and that oid is not a directory manifest. -/
theorem checkout_promotes_missing_unchanged (check : String → Bool)
    (old new : Option PyObj) (k : TKey) (m1 m2 : Option Meta) (h : HashInfo)
    (hk : k ∈ diffKeys old new)
    (ho : pyGet old k = (m1, some h))
    (hn : pyGet new k = (m2, some h))
    (hb : h.toBool = true) :
    changeAt check old new k ∈ (checkoutDiff check old new).unchanged
    ∧ (changeAt check old new k ∈ (checkoutDiff check old new).modified
        ↔ (check (h.value.getD "") = false ∧ h.isdir = false)) := by
  have hTyp : changeTyp (changeAt check old new k) = UNCHANGED := by
    unfold changeTyp changeAt teEq
    simp [ho, hn, TreeEntry.toBool, hb]
  have hMem := diffRun_mem_unchanged check old new k hk hTyp
  have hNotMod : changeAt check old new k ∉ (diffRun check old new).modified := by
    intro hmem
    have := diffRun_modified_typ check old new _ hmem
    rw [hTyp] at this
    exact absurd this (by decide)
  have hC2 : (changeAt check old new k).new.oid = some h := by
    unfold changeAt
    simp [hn]
  have hC1 : (changeAt check old new k).new.in_cache = check (h.value.getD "") := by
    unfold changeAt
    simp [hn, inCache, hb]
  constructor
  · exact hMem
  · unfold checkoutDiff promoteMissing
    simp only [List.mem_append, List.mem_filter]
    constructor
    · rintro (hmod | ⟨_, hcond⟩)
      · exact absurd hmod hNotMod
      · simp only [hC1, hC2, hb, Bool.true_and, Bool.and_eq_true, Bool.not_eq_true'] at hcond
        exact hcond
    · rintro ⟨hc, hd⟩
      refine Or.inr ⟨hMem, ?_⟩
      simp only [hC1, hC2, hb, hc, hd]
      rfl

/-- C2 witness: a concrete equal-oid entry with a failing store check and
a non-directory oid lands in both the unchanged and the modified lists. -/
theorem checkout_promotes_missing_witness :
    changeAt (fun _ => false) (some wTree1) (some wTree1) ["x"]
      ∈ (checkoutDiff (fun _ => false) (some wTree1) (some wTree1)).unchanged
    ∧ changeAt (fun _ => false) (some wTree1) (some wTree1) ["x"]
      ∈ (checkoutDiff (fun _ => false) (some wTree1) (some wTree1)).modified := by
  have h := checkout_promotes_missing_unchanged (fun _ => false)
    (some wTree1) (some wTree1) ["x"] none none hiB
    (by decide) (by decide) (by decide) (by decide)
  exact ⟨h.1, h.2.mpr (by decide)⟩

theorem dlookup_filter_ne {α : Type} (k : String) :
    ∀ (l : List (String × α)), dlookup k (l.filter (fun p => p.1 ≠ k)) = none := by
  intro l
  induction l with
  | nil => rfl
  | cons a t ih =>
      simp only [List.filter_cons]
      split_ifs with hcond
      · unfold dlookup
        rw [if_neg (by simpa using hcond)]
        exact ih
      · exact ih

/-- C3 (amended): when the stored object is not protected and the State
cache has no record for it, a digest mismatch on check with hash
verification yields ObjectFormatError and removes the object from the
store. -/
theorem check_mismatch_amended (md5hex : String → String)
    (stateHit : String → Option String) (db : ODB) (oid bytes : String)
    (hprot : isProtectedM db oid = false)
    (hobj : dlookup oid db.objects = some bytes)
    (hstate : stateHit oid = none)
    (hmm : splitDot (md5hex bytes) ≠ splitDot oid) :
    (dbCheck md5hex stateHit db oid true).1 = ChkRes.formatError
    ∧ dlookup oid (dbCheck md5hex stateHit db oid true).2.objects = none := by
  unfold dbCheck
  rw [hprot]
  simp only [Bool.false_eq_true, if_false, hobj, hstate, if_pos hmm]
  exact ⟨rfl, by simpa using dlookup_filter_ne oid db.objects⟩

/-- C3 amended witness: a concrete unprotected store with stale bytes. -/
theorem check_mismatch_witness :
    (dbCheck (fun _ => "deadbeef") (fun _ => none) db3 "aa11" true).1 = ChkRes.formatError
    ∧ dlookup "aa11" (dbCheck (fun _ => "deadbeef") (fun _ => none) db3 "aa11" true).2.objects
      = none :=
  check_mismatch_amended (fun _ => "deadbeef") (fun _ => none) db3 "aa11" "bytes"
    (by decide) (by decide) rfl (by decide)

/-- C3 counterexample: the claim as stated fails for a protected object —
the stored bytes do not hash to the oid, yet check with hash verification
returns normally and the object still exists afterwards. -/
theorem check_protected_counterexample :
    splitDot ((fun (_ : String) => "deadbeef") "bytes") ≠ splitDot "aa11"
    ∧ dlookup "aa11" db3p.objects = some "bytes"
    ∧ (dbCheck (fun _ => "deadbeef") (fun _ => none) db3p "aa11" true).1 = ChkRes.okRes
    ∧ dlookup "aa11" (dbCheck (fun _ => "deadbeef") (fun _ => none) db3p "aa11" true).2.objects
      = some "bytes" := by
  refine ⟨by decide, by decide, rfl, rfl⟩

/-- C9: the code serves a cached record whose version field is not the
current format version (and `save` writes records without any version
field), contradicting the claim and the repository's own state tests. -/
theorem state_version_ignored_bug :
    stateGet lfs9 { hashes := [("p", rec9)] } "p"
      = (some { size := some 11 }, some { name := some "md5", value := some "v" })
    ∧ rec9.version = some 2
    ∧ stateSave lfs9 {} "p" { name := some "md5", value := some "v" } none
      = .ok { hashes := [("p",
          { version := none, checksum := 7, size := 11, hiDict := [("md5", "v")] })] } :=
  ⟨rfl, rfl, rfl⟩

/-- C10: for a non-local filesystem, `State.save` writes nothing and
`State.get` reports a miss. -/
theorem state_nonlocal_inert (fs : StateFs) (st : StateDB) (path : String)
    (hi : HashInfo) (size : Option Int) (hfs : fs.isLocal = false) :
    stateSave fs st path hi size = .ok st ∧ stateGet fs st path = (none, none) := by
  unfold stateSave stateGet
  rw [hfs]
  simp

/-- C10 witness: a concrete memory filesystem. -/
theorem state_nonlocal_inert_witness :
    stateSave memFs10 {} "foo" hiA none = .ok {}
    ∧ stateGet memFs10 {} "foo" = (none, none) :=
  state_nonlocal_inert memFs10 {} "foo" hiA none rfl


theorem checkoutLoop_no_oserr (env : COEnv) (hforce : env.force = true) :
    ∀ (addmod : List COEntry),
    (∀ e ∈ addmod, env.linkRes (entryPath env.root e.key) ≠ LinkRes.oserr) →
    checkoutLoop env addmod
      = (addmod.map (fun e => entryPath env.root e.key), failedPaths env addmod, none) := by
  intro addmod
  induction addmod with
  | nil => intro _; rfl
  | cons e rest ih =>
      intro hno
      have hrest := ih (fun x hx => hno x (List.mem_cons_of_mem _ hx))
      have hstep : ∀ p, checkoutFileStep env e p = linkStep env p := by
        intro p
        unfold checkoutFileStep removeStep
        rw [hforce]
        cases e.oldOid <;> simp
      by_cases hdir : e.newOid.isdir
      · unfold checkoutLoop
        rw [if_pos hdir, hrest]
        unfold failedPaths
        simp [List.filterMap_cons, hdir]
      · have hne : env.linkRes (entryPath env.root e.key) ≠ LinkRes.oserr :=
          hno e (List.mem_cons_self _ _)
        unfold checkoutLoop
        rw [if_neg hdir, hstep]
        unfold linkStep
        cases hres : env.linkRes (entryPath env.root e.key) with
        | okRes =>
            rw [hrest]
            unfold failedPaths
            simp [List.filterMap_cons, hdir, hres]
        | enoent =>
            rw [hrest]
            unfold failedPaths
            simp [List.filterMap_cons, hdir, hres]
        | oserr => exact absurd hres hne

/-- C8 (amended): with no non-ENOENT link failures and no prompting
(`force`), the checkout loop attempts every added/modified entry, and a
final `CheckoutError` carrying exactly the missing-source paths is raised
only when some entry failed; an `OSError` during link creation instead
raises `LinkError` immediately (see the counterexample). -/
theorem checkout_collects_missing_amended (env : COEnv) (addmod : List COEntry)
    (hforce : env.force = true)
    (hlinks : env.linksAvail = true)
    (hno : ∀ e ∈ addmod, env.linkRes (entryPath env.root e.key) ≠ LinkRes.oserr)
    (hne : addmod ≠ []) :
    (runCheckout env [] addmod).1 = addmod.map (fun e => entryPath env.root e.key)
    ∧ (runCheckout env [] addmod).2
        = (if failedPaths env addmod = [] then .ok ()
           else .error (.checkoutError (failedPaths env addmod))) := by
  unfold runCheckout
  rw [if_neg (by simp [hne]), hlinks]
  simp only [Bool.not_true, Bool.false_eq_true, if_false, List.findSome?_nil]
  rw [checkoutLoop_no_oserr env hforce addmod hno]
  constructor
  · rfl
  · by_cases hf : failedPaths env addmod = []
    · simp [hf]
    · simp [hf]

/-- C8 amended witness: one missing source among two added entries — both
are attempted and the final error lists exactly the failed path. -/
theorem checkout_collects_missing_witness :
    (runCheckout env8b [] addmod8).1 = ["w/a", "w/b"]
    ∧ (runCheckout env8b [] addmod8).2
      = .error (.checkoutError ["w/a"]) := by
  have h := checkout_collects_missing_amended env8b addmod8 rfl rfl (by decide) (by decide)
  refine ⟨?_, ?_⟩
  · rw [h.1]; rfl
  · rw [h.2]; rfl

/-- C8 counterexample: the claim as stated fails for a link-creation
`OSError` — the first entry's failure raises `LinkError` at once, the
second entry is never attempted, and no `CheckoutError` with collected
paths is produced. -/
theorem checkout_linkerror_counterexample :
    runCheckout env8a [] addmod8 = (["w/a"], .error (.linkError "w/a"))
    ∧ addmod8.length = 2 := by
  exact ⟨rfl, rfl⟩

/-- C7: evaluated at two manifests sharing one member file whose transfer
fails, the code still transfers the second manifest: the shared member is
in the failed set, yet the second manifest is added to the destination and
missing from the failed set, contrary to the claim. -/
theorem transfer_shared_member_manifest_bug :
    "f1" ∈ mem7 "d2.dir"
    ∧ fails7 "f1" = true
    ∧ (doTransfer mem7 fails7 [] ["d1.dir", "d2.dir", "f1"]).failed = ["f1", "d1.dir"]
    ∧ "d2.dir" ∈ (doTransfer mem7 fails7 [] ["d1.dir", "d2.dir", "f1"]).added
    ∧ "d2.dir" ∉ (doTransfer mem7 fails7 [] ["d1.dir", "d2.dir", "f1"]).failed := by
  refine ⟨by decide, by decide, by decide, by decide, by decide⟩


theorem charListLt_irrefl : ∀ (x : List Char), charListLt x x = false := by
  intro x
  induction x with
  | nil => rfl
  | cons a as ih =>
      unfold charListLt
      simp [ih]

theorem charListLt_trans :
    ∀ (x y z : List Char), charListLt x y = true → charListLt y z = true →
    charListLt x z = true := by
  intro x
  induction x with
  | nil =>
      intro y z h1 h2
      cases z with
      | nil =>
          cases y with
          | nil => simpa [charListLt] using h1
          | cons b bs => simpa [charListLt] using h2
      | cons c cs => rfl
  | cons a as ih =>
      intro y z h1 h2
      cases y with
      | nil => simp [charListLt] at h1
      | cons b bs =>
          cases z with
          | nil => simp [charListLt] at h2
          | cons c cs =>
              unfold charListLt at h1 h2 ⊢
              by_cases hab : a.toNat < b.toNat
              · rw [if_pos hab] at h1
                by_cases hbc : b.toNat < c.toNat
                · rw [if_pos (show a.toNat < c.toNat by omega)]
                · rw [if_neg hbc] at h2
                  by_cases hcb : c.toNat < b.toNat
                  · rw [if_pos hcb] at h2
                    exact absurd h2 (by simp)
                  · rw [if_pos (show a.toNat < c.toNat by omega)]
              · rw [if_neg hab] at h1
                by_cases hba : b.toNat < a.toNat
                · rw [if_pos hba] at h1
                  exact absurd h1 (by simp)
                · rw [if_neg hba] at h1
                  by_cases hbc : b.toNat < c.toNat
                  · rw [if_pos (show a.toNat < c.toNat by omega)]
                  · rw [if_neg hbc] at h2
                    by_cases hcb : c.toNat < b.toNat
                    · rw [if_pos hcb] at h2
                      exact absurd h2 (by simp)
                    · rw [if_neg hcb] at h2
                      rw [if_neg (show ¬ a.toNat < c.toNat by omega),
                        if_neg (show ¬ c.toNat < a.toNat by omega)]
                      exact ih bs cs h1 h2

theorem charListLt_conn :
    ∀ (x y : List Char), charListLt x y = false → charListLt y x = false → x = y := by
  intro x
  induction x with
  | nil =>
      intro y h1 _
      cases y with
      | nil => rfl
      | cons b bs => simp [charListLt] at h1
  | cons a as ih =>
      intro y h1 h2
      cases y with
      | nil => simp [charListLt] at h2
      | cons b bs =>
          unfold charListLt at h1 h2
          by_cases hab : a.toNat < b.toNat
          · rw [if_pos hab] at h1
            exact absurd h1 (by simp)
          · by_cases hba : b.toNat < a.toNat
            · rw [if_pos hba] at h2
              exact absurd h2 (by simp)
            · rw [if_neg hab, if_neg hba] at h1
              rw [if_neg hba, if_neg hab] at h2
              have hn : a.toNat = b.toNat := by omega
              have hv : a = b :=
                Char.eq_of_val_eq (UInt32.eq_of_val_eq (Fin.eq_of_val_eq hn))
              rw [hv, ih bs h1 h2]

theorem strLe_total (a b : String) : strLe a b = true ∨ strLe b a = true := by
  unfold strLe strLt
  by_cases h : charListLt b.data a.data = true
  · right
    simp only [Bool.not_eq_true']
    by_cases h2 : charListLt a.data b.data = true
    · have htr := charListLt_trans _ _ _ h h2
      rw [charListLt_irrefl] at htr
      exact absurd htr (by simp)
    · simpa using h2
  · left
    simp only [Bool.not_eq_true']
    simpa using h

theorem strLe_trans (a b c : String) (h1 : strLe a b = true) (h2 : strLe b c = true) :
    strLe a c = true := by
  unfold strLe strLt at h1 h2 ⊢
  simp only [Bool.not_eq_true'] at h1 h2 ⊢
  by_cases hca : charListLt c.data a.data = true
  · by_cases hbc : charListLt b.data c.data = true
    · exact absurd (charListLt_trans _ _ _ hbc hca) (by simp [h1])
    · have hb : b.data = c.data := charListLt_conn _ _ (by simpa using hbc) h2
      rw [← hb] at hca
      exact absurd hca (by simp [h1])
  · simpa using hca

theorem strLe_antisymm_data (a b : String) (h1 : strLe a b = true) (h2 : strLe b a = true) :
    a = b := by
  unfold strLe strLt at h1 h2
  simp only [Bool.not_eq_true'] at h1 h2
  exact String.ext (charListLt_conn _ _ h2 h1)

theorem insertSorted_perm {α : Type} (le : α → α → Bool) (a : α) :
    ∀ (l : List α), List.Perm (insertSorted le a l) (a :: l) := by
  intro l
  induction l with
  | nil => exact List.Perm.refl _
  | cons b t ih =>
      unfold insertSorted
      split_ifs
      · exact List.Perm.refl _
      · exact (List.Perm.cons b ih).trans (List.Perm.swap a b t)

theorem stableSort_perm {α : Type} (le : α → α → Bool) :
    ∀ (l : List α), List.Perm (stableSort le l) l := by
  intro l
  induction l with
  | nil => exact List.Perm.refl _
  | cons a t ih =>
      exact (insertSorted_perm le a (stableSort le t)).trans (List.Perm.cons a ih)

theorem insertSorted_pairwise {α : Type} (le : α → α → Bool)
    (htrans : ∀ x y z, le x y = true → le y z = true → le x z = true)
    (htot : ∀ x y, le x y = true ∨ le y x = true) (a : α) :
    ∀ (l : List α), List.Pairwise (fun x y => le x y = true) l →
    List.Pairwise (fun x y => le x y = true) (insertSorted le a l) := by
  intro l
  induction l with
  | nil => intro _; simp [insertSorted]
  | cons b t ih =>
      intro hp
      obtain ⟨hb, ht⟩ := List.pairwise_cons.mp hp
      unfold insertSorted
      split_ifs with hab
      · refine List.pairwise_cons.mpr ⟨?_, hp⟩
        intro x hx
        rcases List.mem_cons.mp hx with rfl | hx
        · exact hab
        · exact htrans a b x hab (hb x hx)
      · refine List.pairwise_cons.mpr ⟨?_, ih ht⟩
        intro x hx
        have hmem := (insertSorted_perm le a t).mem_iff.mp hx
        rcases List.mem_cons.mp hmem with rfl | hx2
        · rcases htot b x with h | h
          · exact h
          · exact absurd h (by simpa using hab)
        · exact hb x hx2

theorem stableSort_pairwise {α : Type} (le : α → α → Bool)
    (htrans : ∀ x y z, le x y = true → le y z = true → le x z = true)
    (htot : ∀ x y, le x y = true ∨ le y x = true) :
    ∀ (l : List α), List.Pairwise (fun x y => le x y = true) (stableSort le l) := by
  intro l
  induction l with
  | nil => simp [stableSort]
  | cons a t ih => exact insertSorted_pairwise le htrans htot a _ ih

theorem sorted_perm_nodup_eq {α : Type} (key : α → String) :
    ∀ (l1 l2 : List α), List.Perm l1 l2 →
    List.Pairwise (fun x y => strLe (key x) (key y) = true) l1 →
    List.Pairwise (fun x y => strLe (key x) (key y) = true) l2 →
    (l1.map key).Nodup → l1 = l2 := by
  intro l1
  induction l1 with
  | nil =>
      intro l2 hp _ _ _
      exact List.Perm.nil_eq hp
  | cons a t1 ih =>
      intro l2 hp hp1 hp2 hnd
      cases l2 with
      | nil => exact absurd hp.symm (by simp)
      | cons b t2 =>
          have hnd2 : key a ∉ t1.map key ∧ (t1.map key).Nodup := by
            rw [List.map_cons] at hnd
            exact List.nodup_cons.mp hnd
          by_cases hab : a = b
          · subst hab
            obtain ⟨_, ht1⟩ := List.pairwise_cons.mp hp1
            obtain ⟨_, ht2⟩ := List.pairwise_cons.mp hp2
            rw [ih t2 (List.Perm.cons_inv hp) ht1 ht2 hnd2.2]
          · have hain : a ∈ b :: t2 := hp.mem_iff.mp (List.mem_cons_self _ _)
            have hbin : b ∈ a :: t1 := hp.symm.mem_iff.mp (List.mem_cons_self _ _)
            have hat2 : a ∈ t2 := by
              rcases List.mem_cons.mp hain with h | h
              · exact absurd h hab
              · exact h
            have hbt1 : b ∈ t1 := by
              rcases List.mem_cons.mp hbin with h | h
              · exact absurd h (fun hh => hab hh.symm)
              · exact h
            have h1 : strLe (key a) (key b) = true :=
              (List.pairwise_cons.mp hp1).1 b hbt1
            have h2 : strLe (key b) (key a) = true :=
              (List.pairwise_cons.mp hp2).1 a hat2
            have hkey : key a = key b := strLe_antisymm_data _ _ h1 h2
            exact absurd (hkey ▸ List.mem_map_of_mem key hbt1) hnd2.1

theorem dictSet_fresh {κ α : Type} [DecidableEq κ] :
    ∀ (d : List (κ × α)) (k : κ) (v : α), k ∉ d.map Prod.fst →
    dictSet d k v = d ++ [(k, v)] := by
  intro d
  induction d with
  | nil => intro k v _; rfl
  | cons a t ih =>
      intro k v hk
      unfold dictSet
      rw [if_neg (fun h => hk (by simp [h]))]
      rw [ih k v (fun h => hk (by simp [h]))]
      simp

theorem buildTree_aux :
    ∀ (l : List (TKey × Option Meta × HashInfo)) (acc : TreeDict),
    ((acc ++ l).map Prod.fst).Nodup →
    l.foldl (fun d e => treeAdd d e.1 e.2.1 e.2.2) acc = acc ++ l := by
  intro l
  induction l with
  | nil =>
      intro acc _
      rw [List.foldl_nil, List.append_nil]
  | cons e t ih =>
      intro acc hnd
      have hfresh : e.1 ∉ acc.map Prod.fst := by
        intro hmem
        rw [List.map_append] at hnd
        have := (List.nodup_append.mp hnd).2.2
        exact this hmem (List.mem_map_of_mem Prod.fst (List.mem_cons_self e t))
      have hstep : treeAdd acc e.1 e.2.1 e.2.2 = acc ++ [e] := by
        unfold treeAdd
        rw [dictSet_fresh acc e.1 (e.2.1, e.2.2) hfresh]
      simp only [List.foldl_cons, hstep]
      rw [ih (acc ++ [e]) (by rw [List.append_assoc]; exact hnd), List.append_assoc]
      rfl

theorem buildTree_eq_self (l : List (TKey × Option Meta × HashInfo))
    (hnd : (l.map Prod.fst).Nodup) : buildTree l = l := by
  unfold buildTree
  have := buildTree_aux l [] (by simpa using hnd)
  simpa using this

theorem asListM_insertion_order (l1 l2 : List (TKey × Option Meta × HashInfo))
    (hperm : List.Perm l1 l2)
    (hnr : (l1.map (fun e => joinKey e.1)).Nodup) :
    asListM (buildTree l1) = asListM (buildTree l2) := by
  have hkey1 : (l1.map Prod.fst).Nodup := by
    have : l1.map (fun e => joinKey e.1) = (l1.map Prod.fst).map joinKey := by
      simp [List.map_map]
    rw [this] at hnr
    exact List.Nodup.of_map _ hnr
  have hkey2 : (l2.map Prod.fst).Nodup := (hperm.map Prod.fst).nodup hkey1
  rw [buildTree_eq_self l1 hkey1, buildTree_eq_self l2 hkey2]
  unfold asListM
  have htrans : ∀ (x y z : DirEntryS), strLe x.relpath y.relpath = true →
      strLe y.relpath z.relpath = true → strLe x.relpath z.relpath = true :=
    fun x y z h1 h2 => strLe_trans _ _ _ h1 h2
  have htot : ∀ (x y : DirEntryS), strLe x.relpath y.relpath = true
      ∨ strLe y.relpath x.relpath = true := fun x y => strLe_total _ _
  refine sorted_perm_nodup_eq (fun e => e.relpath) _ _ ?_ ?_ ?_ ?_
  · exact ((stableSort_perm _ _).trans (hperm.map entrySOf)).trans (stableSort_perm _ _).symm
  · exact stableSort_pairwise _ htrans htot _
  · exact stableSort_pairwise _ htrans htot _
  · have hmapped : ((stableSort (fun a b => strLe a.relpath b.relpath) (l1.map entrySOf)).map
        (fun e => e.relpath)).Perm (l1.map (fun e => joinKey e.1)) := by
      have h1 := (stableSort_perm (fun a b => strLe a.relpath b.relpath) (l1.map entrySOf)).map
        (fun e => e.relpath)
      have h2 : (l1.map entrySOf).map (fun e => e.relpath)
          = l1.map (fun e => joinKey e.1) := by
        simp [List.map_map, entrySOf]
      rw [h2] at h1
      exact h1
    exact hmapped.symm.nodup hnr

/-- C4 (amended): for entries whose relpaths are pairwise distinct, the
digest of a Tree built by adding them in any insertion order is one and
the same HashInfo, and its value always carries the `.dir` suffix. -/
theorem digest_insertion_order_amended (md5hex : String → String)
    (l1 l2 : List (TKey × Option Meta × HashInfo))
    (hperm : List.Perm l1 l2)
    (hnr : (l1.map (fun e => joinKey e.1)).Nodup) :
    digestM md5hex (buildTree l1) = digestM md5hex (buildTree l2)
    ∧ strEndsWith ((digestM md5hex (buildTree l1)).value.getD "") ".dir" = true := by
  constructor
  · unfold digestM asBytesM
    rw [asListM_insertion_order l1 l2 hperm hnr]
  · unfold digestM
    simp only [Option.getD_some]
    unfold strEndsWith
    rw [String.data_append]
    simp [List.isSuffixOf]

/-- C4 amended witness: two insertion orders of a concrete two-entry set
produce the same digest, ending with `.dir`. -/
theorem digest_insertion_order_witness :
    digestM (fun s => s) (buildTree wDigL1) = digestM (fun s => s) (buildTree wDigL2)
    ∧ strEndsWith ((digestM (fun s => s) (buildTree wDigL1)).value.getD "") ".dir" = true :=
  digest_insertion_order_amended (fun s => s) wDigL1 wDigL2 (by decide) (by decide)

/-- C4 counterexample: two distinct keys with the same relpath (a
component containing the path separator) make the digest depend on
insertion order, refuting the claim as stated. -/
theorem digest_duplicate_relpath_counterexample :
    List.Perm cexDigL1 cexDigL2
    ∧ digestM (fun s => s) (buildTree cexDigL1)
      ≠ digestM (fun s => s) (buildTree cexDigL2) := by
  exact ⟨by decide, by decide⟩


theorem splitChars_no_sep (sep : Char) :
    ∀ (cs : List Char), sep ∉ cs → splitChars sep cs = [cs] := by
  intro cs
  induction cs with
  | nil => intro _; rfl
  | cons c t ih =>
      intro hs
      unfold splitChars
      rw [if_neg (fun h => hs (List.mem_cons.mpr (Or.inl h.symm)))]
      rw [ih (fun h => hs (List.mem_cons_of_mem c h))]

theorem splitChars_append (sep : Char) :
    ∀ (cs rest : List Char), sep ∉ cs →
    splitChars sep (cs ++ sep :: rest) = cs :: splitChars sep rest := by
  intro cs
  induction cs with
  | nil =>
      intro rest _
      show splitChars sep (sep :: rest) = [] :: splitChars sep rest
      conv_lhs => unfold splitChars
      simp
  | cons c t ih =>
      intro rest hs
      have hns : ¬ (c = sep) := fun h => hs (List.mem_cons.mpr (Or.inl h.symm))
      have hrec := ih rest (fun h => hs (List.mem_cons_of_mem c h))
      show splitChars sep (c :: (t ++ sep :: rest)) = (c :: t) :: splitChars sep rest
      conv_lhs => unfold splitChars
      simp [hns, hrec]

theorem splitKey_joinKey :
    ∀ (k : TKey), k ≠ [] → (∀ s ∈ k, ('/' : Char) ∉ s.data) →
    splitKey (joinKey k) = k := by
  intro k
  induction k with
  | nil => intro h _; exact absurd rfl h
  | cons s t ih =>
      intro _ hsf
      cases t with
      | nil =>
          unfold joinKey splitKey
          rw [splitChars_no_sep _ _ (hsf s (List.mem_cons_self s []))]
          rfl
      | cons s2 t2 =>
          have hj : joinKey (s :: s2 :: t2) = s ++ "/" ++ joinKey (s2 :: t2) := rfl
          have hdata : (s ++ "/" ++ joinKey (s2 :: t2)).data
              = s.data ++ '/' :: (joinKey (s2 :: t2)).data := by
            rw [String.data_append, String.data_append, List.append_assoc]
            rfl
          unfold splitKey
          rw [hj, hdata, splitChars_append _ _ _ (hsf s (List.mem_cons_self s _))]
          have hih := ih (by simp) (fun x hx => hsf x (List.mem_cons_of_mem s hx))
          unfold splitKey at hih
          rw [List.map_cons, hih]

theorem recover_entry (e : TKey × Option Meta × HashInfo)
    (hk1 : e.1 ≠ []) (hk2 : ∀ s ∈ e.1, ('/' : Char) ∉ s.data)
    (hn : e.2.2.name = some "md5") (hb : e.2.2.toBool = true) :
    (fromListEntry (sortPairs (entrySOf e).pairs)).1 = e.1
    ∧ (fromListEntry (sortPairs (entrySOf e).pairs)).2.2 = e.2.2 := by
  obtain ⟨v, hv⟩ : ∃ v, e.2.2.value = some v := by
    unfold HashInfo.toBool at hb
    cases hval : e.2.2.value with
    | none => rw [hval] at hb; simp at hb
    | some v => exact ⟨v, rfl⟩
  have h22 : e.2.2 = { name := some "md5", value := some v } := by
    cases hx : e.2.2 with
    | mk n2 v2 =>
        have hn2 : n2 = some "md5" := by rw [hx] at hn; exact hn
        have hv2 : v2 = some v := by rw [hx] at hv; exact hv
        rw [hn2, hv2]
  have hvne : ¬ (v = "") := by
    intro hve
    rw [h22, hve] at hb
    exact absurd hb (by decide)
  have hdict : hiToDict e.2.2 = [("md5", v)] := by
    rw [h22]
    simp [hiToDict, HashInfo.toBool, hvne]
  have hpairs : sortPairs (entrySOf e).pairs = [("md5", v), ("relpath", joinKey e.1)] := by
    show sortPairs (entryPairs e.1 e.2.2) = _
    unfold entryPairs
    rw [hdict]
    rfl
  have hfl : fromListEntry [("md5", v), ("relpath", joinKey e.1)]
      = (splitKey (joinKey e.1),
        (some (metaFromDict [("md5", v)]), hiFromDict [("md5", v)])) := rfl
  constructor
  · rw [hpairs, hfl]
    exact splitKey_joinKey e.1 hk1 hk2
  · rw [hpairs, hfl]
    show hiFromDict [("md5", v)] = e.2.2
    rw [h22]
    rfl

/-- C5 (amended): storing a digested tree and loading it back reconstructs
the same keys each carrying an equal hash_info — for entries with truthy
md5 digests, non-empty keys and separator-free components; the meta halves
are not reconstructed (see the counterexample). -/
theorem tree_roundtrip_amended (l : List (TKey × Option Meta × HashInfo))
    (hnr : (l.map (fun e => joinKey e.1)).Nodup)
    (hkeys : ∀ e ∈ l, e.1 ≠ [] ∧ ∀ s ∈ e.1, ('/' : Char) ∉ s.data)
    (hhi : ∀ e ∈ l, e.2.2.name = some "md5" ∧ e.2.2.toBool = true) :
    List.Perm ((loadTree (buildTree l)).map (fun e => (e.1, e.2.2)))
      (l.map (fun e => (e.1, e.2.2))) := by
  have hkeynd : (l.map Prod.fst).Nodup := by
    have hmm : l.map (fun e => joinKey e.1) = (l.map Prod.fst).map joinKey := by
      simp [List.map_map]
    rw [hmm] at hnr
    exact List.Nodup.of_map _ hnr
  rw [buildTree_eq_self l hkeynd]
  unfold loadTree
  set rec2 := fun e : DirEntryS => fromListEntry (sortPairs e.pairs) with hrec2
  have hperm1 : List.Perm (asListM l) (l.map entrySOf) := stableSort_perm _ _
  have hperm2 : List.Perm ((asListM l).map rec2) ((l.map entrySOf).map rec2) :=
    hperm1.map rec2
  have hptwise : ∀ e ∈ l, ((rec2 (entrySOf e)).1, (rec2 (entrySOf e)).2.2)
      = (e.1, e.2.2) := by
    intro e he
    obtain ⟨hk1, hk2⟩ := hkeys e he
    obtain ⟨hn, hb⟩ := hhi e he
    obtain ⟨hq1, hq2⟩ := recover_entry e hk1 hk2 hn hb
    rw [Prod.ext_iff]
    exact ⟨hq1, hq2⟩
  have hkr2 : (((l.map entrySOf).map rec2).map Prod.fst).Nodup := by
    have heq : ((l.map entrySOf).map rec2).map Prod.fst = l.map Prod.fst := by
      rw [List.map_map, List.map_map]
      refine List.map_congr_left ?_
      intro e he
      obtain ⟨hk1, hk2⟩ := hkeys e he
      obtain ⟨hn, hb⟩ := hhi e he
      exact (recover_entry e hk1 hk2 hn hb).1
    rw [heq]
    exact hkeynd
  have hkeyr : (((asListM l).map rec2).map Prod.fst).Nodup :=
    (hperm2.map Prod.fst).symm.nodup hkr2
  rw [buildTree_eq_self _ hkeyr]
  have hmain : ((l.map entrySOf).map rec2).map (fun e => (e.1, e.2.2))
      = l.map (fun e => (e.1, e.2.2)) := by
    rw [List.map_map, List.map_map]
    exact List.map_congr_left (fun e he => hptwise e he)
  exact hmain ▸ (hperm2.map (fun e => (e.1, e.2.2)))

/-- C5 amended witness: a concrete two-entry tree round-trips its keys and
hash infos. -/
theorem tree_roundtrip_witness :
    List.Perm ((loadTree (buildTree wDigL1)).map (fun e => (e.1, e.2.2)))
      (wDigL1.map (fun e => (e.1, e.2.2))) :=
  tree_roundtrip_amended wDigL1 (by decide) (by decide) (by decide)

/-- C5 counterexample: the claim as stated fails for the meta halves — the
original entry carries `Meta(size=3)` but the loaded tree maps the same
key to a meta holding only the digest value, an unequal pair. -/
theorem tree_roundtrip_meta_counterexample :
    dlookup ["a"] (loadTree (buildTree cexTree5))
      = some (some { md5 := some "aaa111" }, hiA)
    ∧ dlookup ["a"] (buildTree cexTree5) = some (some { size := some 3 }, hiA)
    ∧ (some ({ md5 := some "aaa111" } : Meta), hiA)
      ≠ (some ({ size := some 3 } : Meta), hiA) := by
  exact ⟨by decide, by decide, by decide⟩


theorem dlookup_dictSet {κ α : Type} [DecidableEq κ] (k k1 : κ) (v : α) :
    ∀ (d : List (κ × α)),
    dlookup k (dictSet d k1 v) = if k1 = k then some v else dlookup k d := by
  intro d
  induction d with
  | nil => rfl
  | cons a t ih =>
      show dlookup k (if a.1 = k1 then (k1, v) :: t else (a.1, a.2) :: dictSet t k1 v)
        = if k1 = k then some v else dlookup k ((a.1, a.2) :: t)
      by_cases h1 : a.1 = k1
      · rw [if_pos h1]
        unfold dlookup
        by_cases h2 : k1 = k
        · rw [if_pos h2, if_pos h2]
        · rw [if_neg h2, if_neg h2, if_neg (fun hh => h2 (h1 ▸ hh))]
      · rw [if_neg h1]
        unfold dlookup
        by_cases h3 : a.1 = k
        · rw [if_pos h3, if_pos h3, if_neg (fun hh => h1 (h3 ▸ hh.symm))]
        · rw [if_neg h3, if_neg h3, ih]

theorem dlookup_eq_none_iff {κ α : Type} [DecidableEq κ] (k : κ) :
    ∀ (d : List (κ × α)), dlookup k d = none ↔ k ∉ d.map Prod.fst := by
  intro d
  induction d with
  | nil => simp [dlookup]
  | cons a t ih =>
      unfold dlookup
      by_cases h : a.1 = k
      · rw [if_pos h]
        simp [h]
      · rw [if_neg h, ih, List.map_cons]
        simp only [List.mem_cons]
        constructor
        · intro hnot hor
          rcases hor with h2 | h2
          · exact h h2.symm
          · exact hnot h2
        · intro hnot h2
          exact hnot (Or.inr h2)

theorem dlookup_some_mem {κ α : Type} [DecidableEq κ] {k : κ} {v : α} :
    ∀ {d : List (κ × α)}, dlookup k d = some v → (k, v) ∈ d := by
  intro d
  induction d with
  | nil => intro h; simp [dlookup] at h
  | cons a t ih =>
      intro h
      unfold dlookup at h
      by_cases h1 : a.1 = k
      · rw [if_pos h1] at h
        have : a = (k, v) := by
          rw [Prod.ext_iff]
          exact ⟨h1, by injection h⟩
        rw [← this]
        exact List.mem_cons_self _ _
      · rw [if_neg h1] at h
        exact List.mem_cons_of_mem _ (ih h)

theorem mem_dlookup_ne_none {κ α : Type} [DecidableEq κ] {k : κ} {v : α} :
    ∀ {d : List (κ × α)}, (k, v) ∈ d → dlookup k d ≠ none := by
  intro d
  induction d with
  | nil => intro h; simp at h
  | cons a t ih =>
      intro h
      unfold dlookup
      by_cases h1 : a.1 = k
      · rw [if_pos h1]; simp
      · rw [if_neg h1]
        rcases List.mem_cons.mp h with rfl | hmem
        · exact absurd rfl h1
        · exact ih hmem

theorem mem_dlookup_of_nodup {κ α : Type} [DecidableEq κ] {k : κ} {v : α} :
    ∀ {d : List (κ × α)}, (d.map Prod.fst).Nodup → (k, v) ∈ d → dlookup k d = some v := by
  intro d
  induction d with
  | nil => intro _ h; simp at h
  | cons a t ih =>
      intro hnd h
      have hnd2 : a.1 ∉ t.map Prod.fst ∧ (t.map Prod.fst).Nodup := by
        rw [List.map_cons] at hnd
        exact List.nodup_cons.mp hnd
      unfold dlookup
      rcases List.mem_cons.mp h with rfl | hmem
      · rw [if_pos rfl]
      · by_cases h1 : a.1 = k
        · exfalso
          refine hnd2.1 ?_
          rw [h1]
          exact List.mem_map_of_mem Prod.fst hmem
        · rw [if_neg h1]
          exact ih hnd2.2 hmem

theorem mem_keys_dictSet {κ α : Type} [DecidableEq κ] (x k : κ) (v : α) :
    ∀ (d : List (κ × α)),
    x ∈ (dictSet d k v).map Prod.fst ↔ x ∈ d.map Prod.fst ∨ x = k := by
  intro d
  induction d with
  | nil => simp [dictSet, eq_comm]
  | cons a t ih =>
      show x ∈ (if a.1 = k then (k, v) :: t else (a.1, a.2) :: dictSet t k v).map Prod.fst ↔ _
      by_cases h1 : a.1 = k
      · rw [if_pos h1]
        simp [h1, eq_comm]
        tauto
      · rw [if_neg h1]
        simp only [List.map_cons, List.mem_cons, ih]
        tauto

theorem dictSet_keys_nodup {κ α : Type} [DecidableEq κ] (k : κ) (v : α) :
    ∀ (d : List (κ × α)), (d.map Prod.fst).Nodup → ((dictSet d k v).map Prod.fst).Nodup := by
  intro d
  induction d with
  | nil => intro _; simp [dictSet]
  | cons a t ih =>
      intro hnd
      have hnd2 : a.1 ∉ t.map Prod.fst ∧ (t.map Prod.fst).Nodup := by
        rw [List.map_cons] at hnd
        exact List.nodup_cons.mp hnd
      show ((if a.1 = k then (k, v) :: t else (a.1, a.2) :: dictSet t k v).map Prod.fst).Nodup
      by_cases h1 : a.1 = k
      · rw [if_pos h1]
        rw [List.map_cons]
        refine List.nodup_cons.mpr ⟨?_, hnd2.2⟩
        rw [← h1]
        exact hnd2.1
      · rw [if_neg h1]
        rw [List.map_cons]
        refine List.nodup_cons.mpr ⟨?_, ih hnd2.2⟩
        intro hmem
        rcases (mem_keys_dictSet a.1 k v t).mp hmem with h | h
        · exact hnd2.1 h
        · exact h1 h

theorem applyAdds_lookup {κ α : Type} [DecidableEq κ] (k : κ) :
    ∀ (items : List (κ × α)) (d : List (κ × α)), (items.map Prod.fst).Nodup →
    dlookup k (applyAdds items d)
      = match dlookup k items with
        | some v => some v
        | none => dlookup k d := by
  intro items
  induction items with
  | nil => intro d _; rfl
  | cons a t ih =>
      intro d hnd
      obtain ⟨a1, a2⟩ := a
      have hnd2 : a1 ∉ t.map Prod.fst ∧ (t.map Prod.fst).Nodup := by
        rw [List.map_cons] at hnd
        exact List.nodup_cons.mp hnd
      show dlookup k (applyAdds t (dictSet d a1 a2)) = _
      rw [ih _ hnd2.2]
      have hcons : dlookup k ((a1, a2) :: t) = if a1 = k then some a2 else dlookup k t := rfl
      rw [hcons]
      by_cases h1 : a1 = k
      · rw [if_pos h1]
        have ht : dlookup k t = none := by
          rw [dlookup_eq_none_iff, ← h1]
          exact hnd2.1
        rw [ht]
        show dlookup k (dictSet d a1 a2) = some a2
        rw [dlookup_dictSet, if_pos h1]
      · rw [if_neg h1]
        cases htk : dlookup k t with
        | some w => rfl
        | none =>
            show dlookup k (dictSet d a1 a2) = dlookup k d
            rw [dlookup_dictSet, if_neg h1]

theorem applyAdds_keys_nodup {κ α : Type} [DecidableEq κ] :
    ∀ (items : List (κ × α)) (d : List (κ × α)), (d.map Prod.fst).Nodup →
    ((applyAdds items d).map Prod.fst).Nodup := by
  intro items
  induction items with
  | nil => intro d h; exact h
  | cons a t ih =>
      intro d hnd
      show ((applyAdds t (dictSet d a.1 a.2)).map Prod.fst).Nodup
      exact ih _ (dictSet_keys_nodup a.1 a.2 d hnd)

theorem dlookup_filter_key {κ α : Type} [DecidableEq κ] (Q : κ → Bool) (k : κ) :
    ∀ (d : List (κ × α)),
    dlookup k (d.filter (fun p => Q p.1)) = if Q k then dlookup k d else none := by
  intro d
  induction d with
  | nil => simp [dlookup]
  | cons a t ih =>
      obtain ⟨a1, a2⟩ := a
      have hcons : dlookup k ((a1, a2) :: t) = if a1 = k then some a2 else dlookup k t := rfl
      rw [List.filter_cons]
      by_cases hq : Q a1
      · rw [if_pos (by simpa using hq)]
        have hcons2 : dlookup k ((a1, a2) :: t.filter (fun p => Q p.1))
            = if a1 = k then some a2 else dlookup k (t.filter (fun p => Q p.1)) := rfl
        rw [hcons2, hcons, ih]
        by_cases h1 : a1 = k
        · have hqk : Q k = true := h1 ▸ hq
          rw [if_pos h1, if_pos hqk, if_pos h1]
        · rw [if_neg h1, if_neg h1]
      · rw [if_neg (by simpa using hq), ih, hcons]
        by_cases hk : Q k
        · have h1 : ¬ (a1 = k) := fun hh => hq (by rw [hh]; exact hk)
          rw [if_pos hk, if_pos hk, if_neg h1]
        · rw [if_neg hk, if_neg hk]


theorem ddiff_nil_iff {α : Type} [DecidableEq α] (a b : DDict α)
    (hb : (b.map Prod.fst).Nodup) :
    ddiff a b = [] ↔ ∀ k, dlookup k a = dlookup k b := by
  constructor
  · intro h k
    unfold ddiff at h
    obtain ⟨hleft, hRemsSeg⟩ := List.append_eq_nil.mp h
    obtain ⟨hChanges, hAddsSeg⟩ := List.append_eq_nil.mp hleft
    have hAdds : ddiffAdds a b = [] := by
      by_cases hc : ddiffAdds a b = []
      · exact hc
      · rw [if_neg hc] at hAddsSeg
        simp at hAddsSeg
    have hRems : ddiffRems a b = [] := by
      by_cases hc : ddiffRems a b = []
      · exact hc
      · rw [if_neg hc] at hRemsSeg
        simp at hRemsSeg
    cases ha : dlookup k a with
    | none =>
        cases hbk : dlookup k b with
        | none => rfl
        | some v =>
            have hmem := dlookup_some_mem hbk
            have hin : (k, v) ∈ ddiffAdds a b :=
              List.mem_filter.mpr ⟨hmem, by simp [ha]⟩
            rw [hAdds] at hin
            simp at hin
    | some va =>
        cases hbk : dlookup k b with
        | none =>
            have hmem := dlookup_some_mem ha
            have hin : (k, va) ∈ ddiffRems a b :=
              List.mem_filter.mpr ⟨hmem, by simp [hbk]⟩
            rw [hRems] at hin
            simp at hin
        | some vb =>
            have hmem := dlookup_some_mem hbk
            by_cases hv : va = vb
            · rw [hv]
            · have hin : DOp.change k va vb ∈ ddiffChanges a b := by
                refine List.mem_filterMap.mpr ⟨(k, vb), hmem, ?_⟩
                simp only [ha]
                rw [if_pos (by simpa using hv)]
              rw [hChanges] at hin
              simp at hin
  · intro hall
    have hChanges : ddiffChanges a b = [] := by
      unfold ddiffChanges
      rw [List.filterMap_eq_nil_iff]
      intro p hp
      obtain ⟨p1, p2⟩ := p
      have hbp : dlookup p1 b = some p2 := mem_dlookup_of_nodup hb hp
      have hap : dlookup p1 a = some p2 := by rw [hall p1, hbp]
      simp [hap]
    have hAdds : ddiffAdds a b = [] := by
      unfold ddiffAdds
      rw [List.filter_eq_nil_iff]
      intro p hp
      obtain ⟨p1, p2⟩ := p
      have h2 : dlookup p1 b ≠ none := mem_dlookup_ne_none hp
      simp only [decide_eq_true_eq]
      rw [hall p1]
      exact h2
    have hRems : ddiffRems a b = [] := by
      unfold ddiffRems
      rw [List.filter_eq_nil_iff]
      intro p hp
      obtain ⟨p1, p2⟩ := p
      have h2 : dlookup p1 a ≠ none := mem_dlookup_ne_none hp
      simp only [decide_eq_true_eq]
      rw [← hall p1]
      exact h2
    unfold ddiff
    rw [hChanges, if_pos hAdds, if_pos hRems]
    rfl

theorem ddiff_mem_shape {α : Type} [DecidableEq α] {a b : DDict α} {op : DOp α}
    (hop : op ∈ ddiff a b) :
    (∃ k vo vn, op = DOp.change k vo vn)
    ∨ (op = DOp.addG (ddiffAdds a b) ∧ ddiffAdds a b ≠ [])
    ∨ (op = DOp.removeG (ddiffRems a b) ∧ ddiffRems a b ≠ []) := by
  unfold ddiff at hop
  rcases List.mem_append.mp hop with hleft | hrem
  case inr =>
    right; right
    by_cases hc : ddiffRems a b = []
    · rw [if_pos hc] at hrem; simp at hrem
    · rw [if_neg hc] at hrem
      exact ⟨by simpa using hrem, hc⟩
  rcases List.mem_append.mp hleft with hc | hadd
  · left
    obtain ⟨p, _, hf⟩ := List.mem_filterMap.mp hc
    cases hla : dlookup p.1 a with
    | none => simp [hla] at hf
    | some va =>
        simp only [hla] at hf
        split_ifs at hf
        all_goals first
          | exact ⟨p.1, va, p.2, (Option.some_inj.mp hf).symm⟩
          | simp at hf
  · right; left
    by_cases hc : ddiffAdds a b = []
    · rw [if_pos hc] at hadd; simp at hadd
    · rw [if_neg hc] at hadd
      exact ⟨by simpa using hadd, hc⟩

theorem ddiff_allAdd_shape {α : Type} [DecidableEq α] (a b : DDict α)
    (hAll : allAdd (ddiff a b)) (hne : ddiff a b ≠ []) :
    ddiff a b = [DOp.addG (ddiffAdds a b)] ∧ ddiffAdds a b ≠ [] := by
  have hChanges : ddiffChanges a b = [] := by
    rw [List.eq_nil_iff_forall_not_mem]
    intro op hop
    have hmem : op ∈ ddiff a b := by
      unfold ddiff
      exact List.mem_append.mpr (Or.inl (List.mem_append.mpr (Or.inl hop)))
    have htyp := hAll op hmem
    obtain ⟨p, _, hf⟩ := List.mem_filterMap.mp hop
    cases hla : dlookup p.1 a with
    | none => simp [hla] at hf
    | some va =>
        simp only [hla] at hf
        split_ifs at hf
        all_goals first
          | · rw [← Option.some_inj.mp hf] at htyp
              have hch : opTyp (DOp.change p.1 va p.2) = "change" := rfl
              rw [hch] at htyp
              exact absurd htyp (by decide)
          | simp at hf
  have hRems : ddiffRems a b = [] := by
    by_cases hc : ddiffRems a b = []
    · exact hc
    · exfalso
      have hmem : DOp.removeG (ddiffRems a b) ∈ ddiff a b := by
        unfold ddiff
        rw [if_neg hc]
        exact List.mem_append.mpr (Or.inr (by simp))
      have htyp := hAll _ hmem
      have hrm : opTyp (DOp.removeG (ddiffRems a b)) = "remove" := rfl
      rw [hrm] at htyp
      exact absurd htyp (by decide)
  by_cases hAddsE : ddiffAdds a b = []
  · exfalso
    refine hne ?_
    unfold ddiff
    rw [hChanges, if_pos hAddsE, if_pos hRems]
    rfl
  · constructor
    · unfold ddiff
      rw [hChanges, if_neg hAddsE, if_pos hRems]
      rfl
    · exact hAddsE

theorem tdiffE_default_ok {α : Type} [DecidableEq α] (a b : DDict α)
    (h : allAdd (ddiff a b)) : tdiffE [] a b = .ok (ddiff a b) := by
  show (match (ddiff a b).find? (fun op => decide (opTyp op ∉ normAllowed [])) with
    | some op => Except.error (opTyp op)
    | none => Except.ok (ddiff a b)) = Except.ok (ddiff a b)
  rw [List.find?_eq_none.mpr]
  intro op hop
  have := h op hop
  simp [this, normAllowed, ADD]

theorem tdiffE_default_err {α : Type} [DecidableEq α] (a b : DDict α)
    (h : ¬ allAdd (ddiff a b)) : ∃ t, tdiffE [] a b = .error t := by
  cases hf : (ddiff a b).find? (fun op => decide (opTyp op ∉ normAllowed [])) with
  | none =>
      exfalso
      refine h ?_
      intro op hop
      have h2 := List.find?_eq_none.mp hf op hop
      simp only [normAllowed, if_pos rfl, decide_eq_true_eq, not_not] at h2
      simpa using h2
  | some op =>
      refine ⟨opTyp op, ?_⟩
      show (match (ddiff a b).find? (fun op2 => decide (opTyp op2 ∉ normAllowed [])) with
        | some op2 => Except.error (opTyp op2)
        | none => Except.ok (ddiff a b)) = Except.error (opTyp op)
      rw [hf]


theorem patchOps_two_adds {α : Type} [DecidableEq α] (A B : List (TKey × α)) (d : DDict α) :
    patchOps [DOp.addG A, DOp.addG B] d = some (applyAdds B (applyAdds A d)) := rfl

theorem patchOps_changes_some {α : Type} [DecidableEq α] :
    ∀ (ops : List (DOp α)) (d : DDict α),
    (∀ op ∈ ops, ∃ k vo vn, op = DOp.change k vo vn) →
    ∃ m, patchOps ops d = some m := by
  intro ops
  induction ops with
  | nil => intro d _; exact ⟨d, rfl⟩
  | cons op t ih =>
      intro d hall
      obtain ⟨k, vo, vn, hop⟩ := hall op (List.mem_cons_self _ _)
      subst hop
      obtain ⟨m, hm⟩ := ih (dictSet d k vn) (fun op2 h2 => hall op2 (List.mem_cons_of_mem _ h2))
      refine ⟨m, ?_⟩
      have hstep : patchOps (DOp.change k vo vn :: t) d = patchOps t (dictSet d k vn) := rfl
      rw [hstep, hm]

theorem nodup_keys_ddiffAdds {α : Type} [DecidableEq α] (anc b : DDict α)
    (hb : (b.map Prod.fst).Nodup) : ((ddiffAdds anc b).map Prod.fst).Nodup := by
  unfold ddiffAdds
  exact List.Nodup.sublist ((List.filter_sublist b).map Prod.fst) hb

theorem dlookup_ddiffAdds {α : Type} [DecidableEq α] (anc b : DDict α) (k : TKey) :
    dlookup k (ddiffAdds anc b)
      = if dlookup k anc = none then dlookup k b else none := by
  unfold ddiffAdds
  rw [dlookup_filter_key (fun x => decide (dlookup x anc = none)) k b]
  by_cases h : dlookup k anc = none
  · rw [if_pos (by simpa using h), if_pos h]
  · rw [if_neg (by simpa using h), if_neg h]

theorem bothAdds_patch_lookup {α : Type} [DecidableEq α] (anc A B : DDict α) (k : TKey)
    (hA : (A.map Prod.fst).Nodup) (hB : (B.map Prod.fst).Nodup) :
    dlookup k (applyAdds B (applyAdds A anc))
      = match dlookup k B with
        | some v => some v
        | none =>
            match dlookup k A with
            | some v => some v
            | none => dlookup k anc := by
  rw [applyAdds_lookup k B _ hB, applyAdds_lookup k A _ hA]

theorem bothAdds_conflict_iff {α : Type} [DecidableEq α] (anc our their : DDict α)
    (hno : (our.map Prod.fst).Nodup) (hnt : (their.map Prod.fst).Nodup)
    (hna : (anc.map Prod.fst).Nodup) :
    (ddiff (applyAdds (ddiffAdds anc their) (applyAdds (ddiffAdds anc our) anc))
        (applyAdds (ddiffAdds anc our) (applyAdds (ddiffAdds anc their) anc)) = [])
    ↔ ¬ conflictingAdd anc our their := by
  have hAn := nodup_keys_ddiffAdds anc our hno
  have hBn := nodup_keys_ddiffAdds anc their hnt
  have hp2n : ((applyAdds (ddiffAdds anc our) (applyAdds (ddiffAdds anc their) anc)).map
      Prod.fst).Nodup :=
    applyAdds_keys_nodup _ _ (applyAdds_keys_nodup _ _ hna)
  rw [ddiff_nil_iff _ _ hp2n]
  constructor
  · intro heq hconf
    obtain ⟨k, v1, v2, hanc, hour, htheir, hne⟩ := hconf
    have hA : dlookup k (ddiffAdds anc our) = some v1 := by
      rw [dlookup_ddiffAdds, if_pos hanc, hour]
    have hB : dlookup k (ddiffAdds anc their) = some v2 := by
      rw [dlookup_ddiffAdds, if_pos hanc, htheir]
    have h2 := heq k
    rw [bothAdds_patch_lookup anc _ _ k hAn hBn,
      bothAdds_patch_lookup anc _ _ k hBn hAn, hA, hB] at h2
    exact hne (Option.some_inj.mp h2).symm
  · intro hnc k
    rw [bothAdds_patch_lookup anc _ _ k hAn hBn,
      bothAdds_patch_lookup anc _ _ k hBn hAn]
    cases hAk : dlookup k (ddiffAdds anc our) with
    | some v1 =>
        cases hBk : dlookup k (ddiffAdds anc their) with
        | some v2 =>
            have hv : v1 = v2 := by
              by_contra hne
              have hAk2 := hAk
              rw [dlookup_ddiffAdds] at hAk2
              have hBk2 := hBk
              rw [dlookup_ddiffAdds] at hBk2
              by_cases hanc : dlookup k anc = none
              · rw [if_pos hanc] at hAk2 hBk2
                exact hnc ⟨k, v1, v2, hanc, hAk2, hBk2, hne⟩
              · rw [if_neg hanc] at hAk2
                simp at hAk2
            rw [hv]
        | none => rfl
    | none => rfl

theorem tmerge_ok_of_ours_empty {α : Type} [DecidableEq α] (anc our their : DDict α)
    (hOE : ddiff anc our = []) : tmerge [] anc our their = .ok their := by
  have hok := tdiffE_default_ok anc our (by rw [hOE]; intro op h; simp at h)
  unfold tmerge
  simp only [hok, if_pos hOE]

theorem tmerge_err_of_ours_bad {α : Type} [DecidableEq α] (anc our their : DDict α)
    (hOA : ¬ allAdd (ddiff anc our)) :
    ∃ t, tmerge [] anc our their = .unsupportedOp t := by
  obtain ⟨t, ht⟩ := tdiffE_default_err anc our hOA
  refine ⟨t, ?_⟩
  unfold tmerge
  simp only [ht]

theorem tmerge_ok_of_theirs_empty {α : Type} [DecidableEq α] (anc our their : DDict α)
    (hOE : ddiff anc our ≠ []) (hOA : allAdd (ddiff anc our))
    (hTE : ddiff anc their = []) : tmerge [] anc our their = .ok our := by
  have hok1 := tdiffE_default_ok anc our hOA
  have hok2 := tdiffE_default_ok anc their (by rw [hTE]; intro op h; simp at h)
  unfold tmerge
  simp only [hok1, if_neg hOE, hok2, if_pos hTE]

theorem tmerge_err_of_theirs_bad {α : Type} [DecidableEq α] (anc our their : DDict α)
    (hOE : ddiff anc our ≠ []) (hOA : allAdd (ddiff anc our))
    (hTA : ¬ allAdd (ddiff anc their)) :
    ∃ t, tmerge [] anc our their = .unsupportedOp t := by
  obtain ⟨t, ht⟩ := tdiffE_default_err anc their hTA
  refine ⟨t, ?_⟩
  have hok1 := tdiffE_default_ok anc our hOA
  unfold tmerge
  simp only [hok1, if_neg hOE, ht]

theorem tmerge_bothAdd_eval {α : Type} [DecidableEq α] (anc our their : DDict α)
    (hna : (anc.map Prod.fst).Nodup) (hno : (our.map Prod.fst).Nodup)
    (hnt : (their.map Prod.fst).Nodup)
    (hOE : ddiff anc our ≠ []) (hOA : allAdd (ddiff anc our))
    (hTE : ddiff anc their ≠ []) (hTA : allAdd (ddiff anc their)) :
    (¬ conflictingAdd anc our their →
      tmerge [] anc our their
        = .ok (applyAdds (ddiffAdds anc their) (applyAdds (ddiffAdds anc our) anc)))
    ∧ (conflictingAdd anc our their →
      ∃ ps, tmerge [] anc our their = .conflict ps) := by
  obtain ⟨hOsh, _⟩ := ddiff_allAdd_shape anc our hOA hOE
  obtain ⟨hTsh, _⟩ := ddiff_allAdd_shape anc their hTA hTE
  have hok1 := tdiffE_default_ok anc our hOA
  have hok2 := tdiffE_default_ok anc their hTA
  have hAn := nodup_keys_ddiffAdds anc our hno
  have hBn := nodup_keys_ddiffAdds anc their hnt
  have hpatch1 : patchOps (ddiff anc our ++ ddiff anc their) anc
      = some (applyAdds (ddiffAdds anc their) (applyAdds (ddiffAdds anc our) anc)) := by
    rw [hOsh, hTsh]
    exact patchOps_two_adds _ _ _
  have hpatch2 : patchOps (ddiff anc their ++ ddiff anc our) anc
      = some (applyAdds (ddiffAdds anc our) (applyAdds (ddiffAdds anc their) anc)) := by
    rw [hOsh, hTsh]
    exact patchOps_two_adds _ _ _
  have hmain : tmerge [] anc our their
      = (if ddiff (applyAdds (ddiffAdds anc their) (applyAdds (ddiffAdds anc our) anc))
            (applyAdds (ddiffAdds anc our) (applyAdds (ddiffAdds anc their) anc)) = []
        then MergeRes.ok (applyAdds (ddiffAdds anc their) (applyAdds (ddiffAdds anc our) anc))
        else
          match patchOps (ddiff
              (applyAdds (ddiffAdds anc their) (applyAdds (ddiffAdds anc our) anc))
              (applyAdds (ddiffAdds anc our) (applyAdds (ddiffAdds anc their) anc))) [] with
          | some m => MergeRes.conflict (List.map (fun p => joinKey p.1) m)
          | none => MergeRes.keyError) := by
    unfold tmerge
    simp only [hok1, if_neg hOE, hok2, if_neg hTE, hpatch1, hpatch2]
  constructor
  · intro hnc
    rw [hmain, if_pos ((bothAdds_conflict_iff anc our their hno hnt hna).mpr hnc)]
  · intro hconf
    have hdne : ddiff (applyAdds (ddiffAdds anc their) (applyAdds (ddiffAdds anc our) anc))
        (applyAdds (ddiffAdds anc our) (applyAdds (ddiffAdds anc their) anc)) ≠ [] := by
      intro hnil
      exact (bothAdds_conflict_iff anc our their hno hnt hna).mp hnil hconf
    have keysEq : ∀ k : TKey,
        dlookup k (applyAdds (ddiffAdds anc their) (applyAdds (ddiffAdds anc our) anc)) = none
        ↔ dlookup k (applyAdds (ddiffAdds anc our) (applyAdds (ddiffAdds anc their) anc))
          = none := by
      intro k
      rw [bothAdds_patch_lookup anc _ _ k hAn hBn, bothAdds_patch_lookup anc _ _ k hBn hAn]
      cases hB1 : dlookup k (ddiffAdds anc their) <;>
        cases hA1 : dlookup k (ddiffAdds anc our) <;> simp
    have hAdds2 : ddiffAdds (applyAdds (ddiffAdds anc their) (applyAdds (ddiffAdds anc our) anc))
        (applyAdds (ddiffAdds anc our) (applyAdds (ddiffAdds anc their) anc)) = [] := by
      unfold ddiffAdds
      rw [List.filter_eq_nil_iff]
      intro p hp
      obtain ⟨pk, pv⟩ := p
      have h2 := mem_dlookup_ne_none hp
      simp only [decide_eq_true_eq]
      intro hnone
      exact h2 ((keysEq pk).mp hnone)
    have hRems2 : ddiffRems (applyAdds (ddiffAdds anc their) (applyAdds (ddiffAdds anc our) anc))
        (applyAdds (ddiffAdds anc our) (applyAdds (ddiffAdds anc their) anc)) = [] := by
      unfold ddiffRems
      rw [List.filter_eq_nil_iff]
      intro p hp
      obtain ⟨pk, pv⟩ := p
      have h2 := mem_dlookup_ne_none hp
      simp only [decide_eq_true_eq]
      intro hnone
      exact h2 ((keysEq pk).mpr hnone)
    have hchangeShape : ∀ op ∈ ddiff
        (applyAdds (ddiffAdds anc their) (applyAdds (ddiffAdds anc our) anc))
        (applyAdds (ddiffAdds anc our) (applyAdds (ddiffAdds anc their) anc)),
        ∃ k vo vn, op = DOp.change k vo vn := by
      intro op hop
      rcases ddiff_mem_shape hop with h | ⟨_, hne⟩ | ⟨_, hne⟩
      · exact h
      · exact absurd hAdds2 hne
      · exact absurd hRems2 hne
    obtain ⟨m, hm⟩ := patchOps_changes_some _ [] hchangeShape
    refine ⟨List.map (fun p => joinKey p.1) m, ?_⟩
    rw [hmain, if_neg hdne]
    simp only [hm]

/-- C6: three-way merge with the default `allowed` (only "add"). When
ours made no change the code returns theirs outright, and symmetrically
for theirs — even when the skipped side's diff holds disallowed op kinds,
contrary to the claim's "exactly when". Otherwise a `MergeError` outcome
arises precisely when ours' diff is non-empty and either a side's diff
holds a non-add op, or both sides add the same new path with different
content (the only way the two application orders can disagree here). -/
theorem merge_default_characterization {α : Type} [DecidableEq α]
    (anc our their : DDict α)
    (hna : (anc.map Prod.fst).Nodup) (hno : (our.map Prod.fst).Nodup)
    (hnt : (their.map Prod.fst).Nodup) :
    (ddiff anc our = [] → tmerge [] anc our their = .ok their)
    ∧ (ddiff anc our ≠ [] → ddiff anc their = [] → allAdd (ddiff anc our) →
        tmerge [] anc our their = .ok our)
    ∧ ((tmerge [] anc our their).isMergeError = true ↔
        ddiff anc our ≠ []
        ∧ (¬ allAdd (ddiff anc our)
          ∨ (ddiff anc their ≠ []
            ∧ (¬ allAdd (ddiff anc their) ∨ conflictingAdd anc our their)))) := by
  refine ⟨fun hOE => tmerge_ok_of_ours_empty anc our their hOE, ?_, ?_⟩
  · intro hOE hTE hOA
    exact tmerge_ok_of_theirs_empty anc our their hOE hOA hTE
  · by_cases hOE : ddiff anc our = []
    · rw [tmerge_ok_of_ours_empty anc our their hOE]
      simp [MergeRes.isMergeError, hOE]
    · by_cases hOA : allAdd (ddiff anc our)
      · by_cases hTE : ddiff anc their = []
        · rw [tmerge_ok_of_theirs_empty anc our their hOE hOA hTE]
          constructor
          · intro h
            simp [MergeRes.isMergeError] at h
          · rintro ⟨_, h | ⟨hTE2, _⟩⟩
            · exact absurd hOA h
            · exact absurd hTE hTE2
        · by_cases hTA : allAdd (ddiff anc their)
          · obtain ⟨hok, hconfl⟩ :=
              tmerge_bothAdd_eval anc our their hna hno hnt hOE hOA hTE hTA
            by_cases hc : conflictingAdd anc our their
            · obtain ⟨ps, hps⟩ := hconfl hc
              rw [hps]
              exact ⟨fun _ => ⟨hOE, Or.inr ⟨hTE, Or.inr hc⟩⟩, fun _ => rfl⟩
            · rw [hok hc]
              constructor
              · intro h
                simp [MergeRes.isMergeError] at h
              · rintro ⟨_, h | ⟨_, h | h⟩⟩
                · exact absurd hOA h
                · exact absurd hTA h
                · exact absurd h hc
          · obtain ⟨t, ht⟩ := tmerge_err_of_theirs_bad anc our their hOE hOA hTA
            rw [ht]
            exact ⟨fun _ => ⟨hOE, Or.inr ⟨hTE, Or.inl hTA⟩⟩, fun _ => rfl⟩
      · obtain ⟨t, ht⟩ := tmerge_err_of_ours_bad anc our their hOA
        rw [ht]
        exact ⟨fun _ => ⟨hOE, Or.inl hOA⟩, fun _ => rfl⟩

/-- Witness for C6: both sides modify the one tracked path (ours to a
different value), every key list is duplicate-free, and the merge indeed
ends in a `MergeError` outcome, via the theorem's characterisation. -/
theorem merge_default_characterization_witness :
    (tmerge [] wAnc6 wOur6 wAnc6).isMergeError = true := by
  refine (merge_default_characterization wAnc6 wOur6 wAnc6
    (by decide) (by decide) (by decide)).2.2.mpr ⟨by decide, Or.inl ?_⟩
  intro h
  have h2 := h (DOp.change ["f"] hiA hiB) (by decide)
  exact absurd h2 (by decide)

/-- Counterexample for C6 as stated: ours left the ancestor unchanged
while theirs deleted the only path, a `remove` op outside the default
`allowed`; the claim demands `MergeError`, but the ours-unchanged
shortcut returns theirs untouched without validating theirs' ops. -/
theorem merge_shortcut_counterexample :
    tmerge [] cexAnc6 cexAnc6 ([] : DDict HashInfo) = .ok []
    ∧ ¬ allAdd (ddiff cexAnc6 ([] : DDict HashInfo)) := by
  refine ⟨by decide, fun h => ?_⟩
  have h2 := h (DOp.removeG cexAnc6) (by decide)
  exact absurd h2 (by decide)

end DvcData
